import Mathlib

/-!
# LiveData model helper: record store / item grid binding

A shallow embedding of `src/livedata/AbstractModelHelper.h`.

The header file is written against Qt.  The Qt classes it drives
(`QList`, `QVariant`, `QStandardItem`, `QStandardItemModel`) are modelled
first, following their documented behaviour; the classes of the header
(`ModelCaster`, `AbstractModelHelper`, `ItemDataEditor`) are then translated
method by method.

Conventions
* a method that mutates the object is a function returning the new object;
* the header tests no index and returns or throws no error of its own; where a
  call leaves what Qt defines (an index outside the range a `QList` method
  requires, a call through a null item) the method gives an
  `Except QtFailure _`, the stop, next to the object as it is at that point,
  so that what was already mutated when the call stops stays visible;
* `int` indices received from the caller are `Int`; sizes and loop counters,
  which are never negative, are `Nat`.
-/

namespace LiveData

/-! ## Qt side -/

/-- Ways a call can stop instead of returning: an index outside the range
`0 <= i < size` that `QList` requires of `at`, `operator[]` and `takeAt`, or a
call through a null `QStandardItem*`.  Neither is an error value handed to the
caller.  Qt guards the range with `Q_ASSERT_X(..., "index out of range")` only:
a build with assertions aborts the program there, and without them Qt defines
nothing past that point.  The model records the stop and the object as it was
when the call left defined behaviour, and describes nothing after it. -/
inductive QtFailure where
  | indexOutOfRange
  | nullItem
deriving DecidableEq, Repr

/-- A `QVariant` over payloads `U`: `none` is the invalid variant. -/
abbrev QVariant (U : Type) := Option U

/-- Conversion of a column value type `E` to and from `QVariant`
(`QVariant::fromValue`, `QVariant::value<E>()`).  A variant made from a value
gives that value back; `value` of any other variant is whatever Qt converts it
to (a default-constructed `E` when it cannot). -/
class QMetaType (U : Type) (E : Type) where
  fromValue : E → U
  value : QVariant U → E
  value_fromValue : ∀ x : E, value (some (fromValue x)) = x

namespace Qt

/-- The role `Qt::DisplayRole`. -/
def DisplayRole : Int := 0

/-- The role `Qt::EditRole`. -/
def EditRole : Int := 2

end Qt

namespace QList

/-- Read access `l.at(i)` / `l[i]`: `none` stands for the failed range assertion. -/
def at? {α : Type} (l : List α) (i : Int) : Option α :=
  if 0 ≤ i then l[i.toNat]? else none

/-- The method `QList::takeAt(i)`.  For `0 <= i < size` it removes the element at `i`
and returns it.  Outside that range Qt defines no result and returns no error:
its only guard is `Q_ASSERT_X(i >= 0 && i < p.size(), "QList<T>::take",
"index out of range")`, which a build with assertions turns into a program
abort; the `else` arm is that stop, reached before the list is touched. -/
def takeAt {α : Type} (l : List α) (i : Int) : Except QtFailure (α × List α) :=
  if h : 0 ≤ i ∧ i.toNat < l.length then
    .ok (l.get ⟨i.toNat, h.2⟩, l.eraseIdx i.toNat)
  else .error .indexOutOfRange

end QList

/-- A `QStandardItem`: its role-tagged values, in the order the roles were first
set, and the editable flag. -/
structure QStandardItem (U : Type) where
  values : List (Int × QVariant U)
  editable : Bool
deriving DecidableEq

namespace QStandardItem

variable {U : Type}

/-- The item made by `new QStandardItem`: no data, editable. -/
def new : QStandardItem U := ⟨[], true⟩

/-- Items keep `Qt::EditRole` and `Qt::DisplayRole` in one slot. -/
def storageRole (role : Int) : Int :=
  if role = Qt.EditRole then Qt.DisplayRole else role

/-- Write of one role into the value vector: the entry of that role is replaced
(erased when the new value is invalid), a role not yet present is appended. -/
def store : List (Int × QVariant U) → Int → QVariant U → List (Int × QVariant U)
  | [], role, value => [(role, value)]
  | (r, v) :: rest, role, value =>
    if r = role then
      match value with
      | some _ => (r, value) :: rest
      | none => rest
    else (r, v) :: store rest role value

/-- Read of one role from the value vector; invalid when the role is absent. -/
def find : List (Int × QVariant U) → Int → QVariant U
  | [], _ => none
  | (r, v) :: rest, role => if r = role then v else find rest role

/-- The method `QStandardItem::setData(value, role)`. -/
def setData (item : QStandardItem U) (value : QVariant U) (role : Int) : QStandardItem U :=
  { item with values := store item.values (storageRole role) value }

/-- The method `QStandardItem::data(role)`. -/
def data (item : QStandardItem U) (role : Int) : QVariant U :=
  find item.values (storageRole role)

/-- The method `QStandardItem::setEditable(editable)`. -/
def setEditable (item : QStandardItem U) (editable : Bool) : QStandardItem U :=
  { item with editable := editable }

end QStandardItem

/-- Resize of a vector of nullable entries to `n` entries: cut, or filled with null. -/
def resizeNull {α : Type} (l : List (Option α)) (n : Nat) : List (Option α) :=
  l.take n ++ List.replicate (n - l.length) none

/-- A `QStandardItemModel` seen as a table: the column count, the rows (each a
vector of nullable item pointers) and the horizontal header labels. -/
structure QStandardItemModel (U : Type) where
  columns : Nat
  rows : List (List (Option (QStandardItem U)))
  horizontalHeader : List (Option String)
deriving DecidableEq

namespace QStandardItemModel

variable {U : Type}

/-- The model made by `new QStandardItemModel`: no row, no column. -/
def empty : QStandardItemModel U := ⟨0, [], []⟩

/-- The method `clear()`: removes all items and headers, and sets rows and columns to 0. -/
def clear (_m : QStandardItemModel U) : QStandardItemModel U := ⟨0, [], []⟩

/-- The method `rowCount()`. -/
def rowCount (m : QStandardItemModel U) : Nat := m.rows.length

/-- The method `columnCount()`. -/
def columnCount (m : QStandardItemModel U) : Nat := m.columns

/-- The method `setColumnCount(columns)`: every row and the header are resized. -/
def setColumnCount (m : QStandardItemModel U) (columns : Nat) : QStandardItemModel U :=
  { columns := columns
    rows := m.rows.map (fun r => resizeNull r columns)
    horizontalHeader := resizeNull m.horizontalHeader columns }

/-- The call `setHeaderData(section, Qt::Horizontal, value, Qt::DisplayRole)`: ignored
for a section that is not a column. -/
def setHeaderData (m : QStandardItemModel U) (sect : Nat) (value : String) :
    QStandardItemModel U :=
  if sect < m.columns then
    { m with horizontalHeader := m.horizontalHeader.set sect (some value) }
  else m

/-- The method `insertRow(row, items)`: grows the column count to the number of items
when that is larger, refuses a position past the end, and otherwise inserts one
row holding the items followed by null cells. -/
def insertRow (m : QStandardItemModel U) (row : Nat) (items : List (QStandardItem U)) :
    QStandardItemModel U :=
  let m1 := if m.columns < items.length then m.setColumnCount items.length else m
  if m1.rows.length < row then m1
  else
    { m1 with
      rows := m1.rows.take row ++ [resizeNull (items.map some) m1.columns] ++ m1.rows.drop row }

/-- The method `appendRow(items)`. -/
def appendRow (m : QStandardItemModel U) (items : List (QStandardItem U)) :
    QStandardItemModel U :=
  m.insertRow m.rowCount items

/-- The method `removeRow(row)`: `false` and no change unless `0 <= row < rowCount`. -/
def removeRow (m : QStandardItemModel U) (row : Int) : Bool × QStandardItemModel U :=
  if row < 0 ∨ (m.rowCount : Int) < row + 1 then (false, m)
  else (true, { m with rows := m.rows.eraseIdx row.toNat })

/-- The method `item(row, column)`: the item pointer of a cell, null when the cell is
outside the table or holds no item. -/
def item (m : QStandardItemModel U) (row : Int) (column : Nat) : Option (QStandardItem U) :=
  if row < 0 then none
  else
    match m.rows[row.toNat]? with
    | none => none
    | some r => (r[column]?).join

/-- Effect on the model of mutating, through its pointer, the item of cell
`(row, column)` into `it`. -/
def putItem (m : QStandardItemModel U) (row : Nat) (column : Nat) (it : QStandardItem U) :
    QStandardItemModel U :=
  match m.rows[row]? with
  | none => m
  | some r => { m with rows := m.rows.set row (r.set column (some it)) }

end QStandardItemModel

/-! ## `ModelCaster` -/

/-- A column accessor `E& (*ptr)(T&)`: a reference to a part of the record, as
`BIND_COL(member)` makes.  Reading through the reference is `get`, assigning
through it is `set`; assigning the value just read changes nothing. -/
structure FieldRef (T : Type) (E : Type) where
  get : T → E
  set : T → E → T
  set_get : ∀ d : T, set d (get d) = d

/-- The class `ModelCaster<T>`: per column, the closure that fills an item from a
record and the closure that fills the record from an item. -/
structure ModelCaster (T U : Type) where
  setters : List (T → QStandardItem U → QStandardItem U)
  getters : List (T → Option (QStandardItem U) → Except QtFailure T)

namespace ModelCaster

variable {T U : Type}

/-- A caster with no column yet. -/
def empty : ModelCaster T U := ⟨[], []⟩

/-- The method `next(ptr, role, editable)`; `ptr = none` is the null function pointer. -/
def next {E : Type} [QMetaType U E] (c : ModelCaster T U) (ptr : Option (FieldRef T E))
    (role : Int) (editable : Bool) : ModelCaster T U :=
  { setters := c.setters ++ [fun data item =>
      let item1 :=
        match ptr with
        | some p => item.setData (some (QMetaType.fromValue (p.get data))) role
        | none => item
      item1.setEditable editable]
    getters := c.getters ++ [fun data item =>
      match ptr with
      | some p =>
        match item with
        | some it => .ok (p.set data (QMetaType.value (it.data role)))
        | none => .error .nullItem
      | none => .ok data] }

/-- The method `next(editable)`: a column with no data behind it. -/
def nextNoData (c : ModelCaster T U) (editable : Bool) : ModelCaster T U :=
  { setters := c.setters ++ [fun _ item => item.setEditable editable]
    getters := c.getters ++ [fun data _ => .ok data] }

end ModelCaster

/-! ## `AbstractModelHelper` -/

/-- The class `AbstractModelHelper<T>`: the record store `data`, the item model, the
caster; `getHeaders` is the value the subclass returns from the pure virtual
`getHeaders()`, and `headerCreated` lists the arguments of the calls made so far
to the virtual hook `onHeaderCreated`, whose body is empty. -/
structure AbstractModelHelper (T U : Type) where
  data : List T
  model : QStandardItemModel U
  modelCaster : ModelCaster T U
  getHeaders : List String
  headerCreated : List Nat

/-- Result of a method: the returned value, or the stop when the call left what Qt
defines, and the object as it is at that point. -/
abbrev Outcome (T U : Type) (α : Type) := Except QtFailure α × AbstractModelHelper T U

namespace AbstractModelHelper

variable {T U : Type}

/-- The constructor: empty store, fresh model. -/
def init (modelCaster : ModelCaster T U) (headers : List String) : AbstractModelHelper T U :=
  { data := []
    model := QStandardItemModel.empty
    modelCaster := modelCaster
    getHeaders := headers
    headerCreated := [] }

/-- The hook `onHeaderCreated(colSize)`: nothing but the call itself. -/
def onHeaderCreated (e : AbstractModelHelper T U) (colSize : Nat) : AbstractModelHelper T U :=
  { e with headerCreated := e.headerCreated ++ [colSize] }

/-- The loop `for (const auto& h : headers) setHeaderData(col++, ...)`. -/
def setHeaderLabels : QStandardItemModel U → List String → Nat → QStandardItemModel U
  | m, [], _ => m
  | m, h :: hs, col => setHeaderLabels (m.setHeaderData col h) hs (col + 1)

/-- The method `createHeader(headers)`. -/
def createHeader (e : AbstractModelHelper T U) (headers : List String) :
    AbstractModelHelper T U :=
  let m :=
    if !headers.isEmpty then
      setHeaderLabels (e.model.setColumnCount headers.length) headers 0
    else e.model.setColumnCount 1
  onHeaderCreated { e with model := m } m.columnCount

/-- The method `reset()`. -/
def reset (e : AbstractModelHelper T U) : AbstractModelHelper T U :=
  createHeader { e with model := e.model.clear, data := [] } e.getHeaders

/-- The loop of `append` / `prepend` that makes the items of a row:
`newItems setters d n i` runs the `n` iterations starting at column `i`. -/
def newItems (setters : List (T → QStandardItem U → QStandardItem U)) (d : T) :
    Nat → Nat → Except QtFailure (List (QStandardItem U))
  | 0, _ => .ok []
  | n + 1, i =>
    match setters[i]? with
    | none => .error .indexOutOfRange
    | some s =>
      match newItems setters d n (i + 1) with
      | .error f => .error f
      | .ok items => .ok (s d QStandardItem.new :: items)

/-- The method `append(d)`. -/
def append (e : AbstractModelHelper T U) (d : T) : Outcome T U Int :=
  let e1 := { e with data := e.data ++ [d] }
  let colSize := e1.model.columnCount
  match newItems e1.modelCaster.setters d colSize 0 with
  | .error f => (.error f, e1)
  | .ok items =>
    let m := e1.model.appendRow items
    (.ok ((m.rowCount : Int) - 1), { e1 with model := m })

/-- The method `prepend(d)`. -/
def prepend (e : AbstractModelHelper T U) (d : T) : Outcome T U Unit :=
  let e1 := { e with data := d :: e.data }
  let colSize := e1.model.columnCount
  match newItems e1.modelCaster.setters d colSize 0 with
  | .error f => (.error f, e1)
  | .ok items => (.ok (), { e1 with model := e1.model.insertRow 0 items })

/-- The method `takeRow(index)`. -/
def takeRow (e : AbstractModelHelper T U) (index : Int) : Outcome T U T :=
  let e1 := { e with model := (e.model.removeRow index).2 }
  match QList.takeAt e1.data index with
  | .error f => (.error f, e1)
  | .ok (d, rest) => (.ok d, { e1 with data := rest })

/-- The method `takeLast()`. -/
def takeLast (e : AbstractModelHelper T U) : Outcome T U T :=
  takeRow e ((e.model.rowCount : Int) - 1)

/-- The method `takeFirst()`. -/
def takeFirst (e : AbstractModelHelper T U) : Outcome T U T :=
  takeRow e 0

/-- The method `getRowCount()`. -/
def getRowCount (e : AbstractModelHelper T U) : Nat := e.model.rowCount

/-- The method `getData()`. -/
def getData (e : AbstractModelHelper T U) : List T := e.data

/-- The column loop of `update`: `updateCols row n j e` runs the `n` iterations
starting at column `j`, each one `getters.at(j)(data[row], model->item(row, j))`;
the getter assigns into `data[row]` in place. -/
def updateCols (row : Int) : Nat → Nat → AbstractModelHelper T U → Outcome T U Unit
  | 0, _, e => (.ok (), e)
  | n + 1, j, e =>
    match e.modelCaster.getters[j]? with
    | none => (.error .indexOutOfRange, e)
    | some g =>
      match QList.at? e.data row with
      | none => (.error .indexOutOfRange, e)
      | some d =>
        match g d (e.model.item row j) with
        | .error f => (.error f, e)
        | .ok d1 => updateCols row n (j + 1) { e with data := e.data.set row.toNat d1 }

/-- The row loop of `update()`: `n` iterations starting at row `i`. -/
def updateRows (colSize : Nat) : Nat → Nat → AbstractModelHelper T U → Outcome T U Unit
  | 0, _, e => (.ok (), e)
  | n + 1, i, e =>
    match updateCols (i : Int) colSize 0 e with
    | (.error f, e1) => (.error f, e1)
    | (.ok _, e1) => updateRows colSize n (i + 1) e1

/-- The method `update()`. -/
def update (e : AbstractModelHelper T U) : Outcome T U Unit :=
  updateRows e.model.columnCount e.model.rowCount 0 e

/-- The method `update(int row)`. -/
def updateRow (e : AbstractModelHelper T U) (row : Int) : Outcome T U Unit :=
  updateCols row e.model.columnCount 0 e

/-- The loop of `rowDataReseted`: `n` iterations starting at column `j`, each one
`setters.at(j)(data[rowIndex], model->item(rowIndex, j))`.  The setter list, the
record list and the item are looked up in this order, and every setter calls
through the item pointer, so a null item stops the call. -/
def resetCols (rowIndex : Int) : Nat → Nat → AbstractModelHelper T U → Outcome T U Unit
  | 0, _, e => (.ok (), e)
  | n + 1, j, e =>
    match e.modelCaster.setters[j]? with
    | none => (.error .indexOutOfRange, e)
    | some s =>
      match QList.at? e.data rowIndex with
      | none => (.error .indexOutOfRange, e)
      | some d =>
        match e.model.item rowIndex j with
        | none => (.error .nullItem, e)
        | some it =>
          resetCols rowIndex n (j + 1)
            { e with model := e.model.putItem rowIndex.toNat j (s d it) }

/-- The method `rowDataReseted(rowIndex)`. -/
def rowDataReseted (e : AbstractModelHelper T U) (rowIndex : Int) : Outcome T U Unit :=
  resetCols rowIndex e.model.columnCount 0 e

end AbstractModelHelper

/-! ## `ItemDataEditor` -/

/-- The class `ItemDataEditor<T>`: `data` is the store slot the `T*` points to,
`callback` the stored closure, run against the helper it captured;
`deleteLaterCalled` records the `deleteLater()` request, which Qt serves
only once control is back in the event loop. -/
structure ItemDataEditor (T U : Type) where
  data : Int
  callback : AbstractModelHelper T U → Outcome T U Unit
  deleteLaterCalled : Bool

namespace AbstractModelHelper

variable {T U : Type}

/-- The method `editRow(rowIndex)`: `&data[rowIndex]` asserts the index, the closure
captures `rowIndex`. -/
def editRow (e : AbstractModelHelper T U) (rowIndex : Int) :
    Except QtFailure (ItemDataEditor T U) :=
  match QList.at? e.data rowIndex with
  | none => .error .indexOutOfRange
  | some _ =>
    .ok { data := rowIndex
          callback := fun h => rowDataReseted h rowIndex
          deleteLaterCalled := false }

end AbstractModelHelper

namespace ItemDataEditor

variable {T U : Type}

/-- Read through the reference `operator()` returns. -/
def read (ed : ItemDataEditor T U) (e : AbstractModelHelper T U) : Option T :=
  QList.at? e.data ed.data

/-- Assignment through the reference `operator()` returns: the slot the editor points
to takes the value (an editor is only made by `editRow`, on a slot that exists). -/
def assign (ed : ItemDataEditor T U) (e : AbstractModelHelper T U) (d : T) :
    AbstractModelHelper T U :=
  if 0 ≤ ed.data then { e with data := e.data.set ed.data.toNat d } else e

/-- The method `apply()`: runs the callback, then asks for deferred deletion. -/
def apply (ed : ItemDataEditor T U) (e : AbstractModelHelper T U) :
    Outcome T U (ItemDataEditor T U) :=
  match ed.callback e with
  | (.error f, e1) => (.error f, e1)
  | (.ok _, e1) => (.ok { ed with deleteLaterCalled := true }, e1)

end ItemDataEditor

/-! ## Drivers: sequences of calls -/

/-- One call made on the helper by its owner.  `assign rowIndex d` is
`editRow(rowIndex)() = d` (a mutation through an open editor, not applied);
`commit rowIndex` is `editRow(rowIndex).apply()`. -/
inductive Op (T : Type) where
  | reset
  | append (d : T)
  | prepend (d : T)
  | takeRow (index : Int)
  | takeLast
  | takeFirst
  | update
  | updateRow (row : Int)
  | assign (rowIndex : Int) (d : T)
  | commit (rowIndex : Int)

/-- Whether the call is one of the row insertions and removals. -/
def Op.isInsertRemove {T : Type} : Op T → Bool
  | .append _ => true
  | .prepend _ => true
  | .takeRow _ => true
  | .takeLast => true
  | .takeFirst => true
  | _ => false

/-- Forgets the value a method returned. -/
def Outcome.discard {T U α : Type} (o : Outcome T U α) : Outcome T U Unit :=
  match o with
  | (.error f, e) => (.error f, e)
  | (.ok _, e) => (.ok (), e)

namespace AbstractModelHelper

variable {T U : Type}

/-- Runs one call. -/
def step (e : AbstractModelHelper T U) : Op T → Outcome T U Unit
  | .reset => (.ok (), e.reset)
  | .append d => Outcome.discard (e.append d)
  | .prepend d => e.prepend d
  | .takeRow index => Outcome.discard (e.takeRow index)
  | .takeLast => Outcome.discard e.takeLast
  | .takeFirst => Outcome.discard e.takeFirst
  | .update => e.update
  | .updateRow row => e.updateRow row
  | .assign rowIndex d =>
    match e.editRow rowIndex with
    | .error f => (.error f, e)
    | .ok ed => (.ok (), ed.assign e d)
  | .commit rowIndex =>
    match e.editRow rowIndex with
    | .error f => (.error f, e)
    | .ok ed => Outcome.discard (ed.apply e)

/-- Runs the calls in order; the helper after each call is what the next one
starts from, whether or not the call failed. -/
def exec (e : AbstractModelHelper T U) : List (Op T) → AbstractModelHelper T U
  | [] => e
  | op :: ops => exec (e.step op).2 ops

end AbstractModelHelper

/-! ## Properties stated by the specification -/

/-- The row built from a record: each setter, in column order, applied to a new item. -/
def buildRow {T U : Type} (setters : List (T → QStandardItem U → QStandardItem U)) (d : T) :
    List (Option (QStandardItem U)) :=
  setters.map (fun s => some (s d QStandardItem.new))

/-- The write-back of a row into a record, as the specification words it: each
getter, in column order, applied to the record so far and the cell of its
column. -/
def writeBackRow {T U : Type} :
    List (T → Option (QStandardItem U) → Except QtFailure T) → T →
      List (Option (QStandardItem U)) → Except QtFailure T
  | g :: gs, d, c :: cs =>
    match g d c with
    | .error f => .error f
    | .ok d1 => writeBackRow gs d1 cs
  | _, d, _ => .ok d

/-- Casters made by calls of `next`, the only way the class offers. -/
inductive ModelCaster.FromNext {T U : Type} : ModelCaster T U → Prop
  | empty : FromNext ModelCaster.empty
  | next {E : Type} [QMetaType U E] (c : ModelCaster T U) (ptr : Option (FieldRef T E))
      (role : Int) (editable : Bool) : FromNext c → FromNext (c.next ptr role editable)
  | nextNoData (c : ModelCaster T U) (editable : Bool) :
      FromNext c → FromNext (c.nextNoData editable)

namespace AbstractModelHelper

variable {T U : Type}

/-- Row/record alignment: as many records as grid rows, and every grid row holds
exactly the cells built from the record of the same index. -/
def Aligned (e : AbstractModelHelper T U) : Prop :=
  e.data.length = e.model.rowCount ∧
    ∀ (i : Nat) (d : T), e.data[i]? = some d →
      e.model.rows[i]? = some (buildRow e.modelCaster.setters d)

/-- States of a helper in use: constructed with a caster made by `next` calls, then
driven by calls that all returned. -/
inductive Reachable : AbstractModelHelper T U → Prop
  | init (c : ModelCaster T U) (headers : List String) :
      c.FromNext → Reachable (init c headers)
  | step (e : AbstractModelHelper T U) (op : Op T) (e1 : AbstractModelHelper T U) :
      Reachable e → e.step op = (.ok (), e1) → Reachable e1

end AbstractModelHelper

/-- What a setter and the getter of the same column owe each other: filling an
item twice leaves only the second fill, the getter reads any item there is, and
reading back what was just filled from a record gives that record. -/
structure ColumnLaw {T U : Type} (s : T → QStandardItem U → QStandardItem U)
    (g : T → Option (QStandardItem U) → Except QtFailure T) : Prop where
  overwrite : ∀ (d d1 : T) (it : QStandardItem U), s d1 (s d it) = s d1 it
  readable : ∀ (d : T) (it : QStandardItem U), ∃ d1, g d (some it) = .ok d1
  roundTrip : ∀ (d : T) (it : QStandardItem U), g d (some (s d it)) = .ok d

/-- Indexwise form of the column laws of a caster: as many getters as setters, and
the law for the pair found at each column. -/
def ModelCaster.Lawful {T U : Type} (c : ModelCaster T U) : Prop :=
  c.getters.length = c.setters.length ∧
    ∀ (j : Nat) (s : T → QStandardItem U → QStandardItem U)
      (g : T → Option (QStandardItem U) → Except QtFailure T),
      c.setters[j]? = some s → c.getters[j]? = some g → ColumnLaw s g

/-- Shape of a helper in use: store and grid have the same number of rows, the
caster comes from `next` calls and covers the columns as soon as there is a
row, and every grid row was built by the setters from some record. -/
structure AbstractModelHelper.WellFormed {T U : Type} (e : AbstractModelHelper T U) :
    Prop where
  sync : e.data.length = e.model.rows.length
  caster : e.modelCaster.FromNext
  cols : e.model.rows ≠ [] → e.model.columns ≤ e.modelCaster.setters.length
  built : ∀ row ∈ e.model.rows,
    ∃ d, row = buildRow (e.modelCaster.setters.take e.model.columns) d

/-- The grid mirrors the store: one descriptor per column, and the rows are the
records' built rows, in the same order. -/
def AbstractModelHelper.Mirror {T U : Type} (e : AbstractModelHelper T U) : Prop :=
  e.model.columns = e.modelCaster.setters.length ∧
    e.model.rows = e.data.map (buildRow e.modelCaster.setters)

/-- The column count a header list asks for: its length, or 1 when it is empty. -/
def headerColumns (headers : List String) : Nat :=
  if headers = [] then 1 else headers.length

/-- The caster covers the grid: it has as many descriptors as the header asks
columns, the grid has that many columns, and every row has that many cells. -/
def AbstractModelHelper.Covered {T U : Type} (e : AbstractModelHelper T U) : Prop :=
  e.modelCaster.setters.length = headerColumns e.getHeaders ∧
    e.model.columnCount = e.modelCaster.setters.length ∧
    ∀ row ∈ e.model.rows, row.length = e.modelCaster.setters.length

/-- Whether every call of the list returns when run in order. -/
def AbstractModelHelper.okRun {T U : Type} :
    AbstractModelHelper T U → List (Op T) → Bool
  | _, [] => true
  | e, op :: ops =>
    match e.step op with
    | (.ok _, e1) => okRun e1 ops
    | (.error _, _) => false

/-! ## A sample instantiation -/

/-- A sample record type. -/
structure Stock where
  code : Nat
  qty : Int
deriving DecidableEq, Repr

instance : QMetaType Int Nat where
  fromValue := Int.ofNat
  value := fun v => (v.getD 0).toNat
  value_fromValue := fun _ => rfl

instance : QMetaType Int Int where
  fromValue := id
  value := fun v => v.getD 0
  value_fromValue := fun _ => rfl

/-- The accessor `BIND_COL(code)`. -/
def Stock.codeRef : FieldRef Stock Nat where
  get := fun d => d.code
  set := fun d x => { d with code := x }
  set_get := fun _ => rfl

/-- The accessor `BIND_COL(qty)`. -/
def Stock.qtyRef : FieldRef Stock Int where
  get := fun d => d.qty
  set := fun d x => { d with qty := x }
  set_get := fun _ => rfl

/-- A caster binding `code` (read-only) and `qty` (editable). -/
def stockCaster : ModelCaster Stock Int :=
  ((ModelCaster.empty.next (some Stock.codeRef) Qt.DisplayRole false).next
    (some Stock.qtyRef) Qt.EditRole true)

/-- A helper over `Stock` with two header titles, before its first `reset()`. -/
def stockHelper : AbstractModelHelper Stock Int :=
  AbstractModelHelper.init stockCaster ["Code", "Qty"]

/-- A caster with a single column, for a helper that declares three titles. -/
def shortCaster : ModelCaster Stock Int :=
  ModelCaster.empty.next (some Stock.codeRef) Qt.DisplayRole false

/-- A helper whose header has three titles while its caster has one column. -/
def shortHelper : AbstractModelHelper Stock Int :=
  AbstractModelHelper.init shortCaster ["A", "B", "C"]

/-- The setter of the last column of the sample caster. -/
def stockQtySetter : Stock → QStandardItem Int → QStandardItem Int :=
  stockCaster.setters.getLastD (fun _ item => item)

/-- The getter of the last column of the sample caster. -/
def stockQtyGetter : Stock → Option (QStandardItem Int) → Except QtFailure Stock :=
  stockCaster.getters.getLastD (fun d _ => .ok d)

/-- The sample helper after `reset()` and one `append`. -/
def stockOne : AbstractModelHelper Stock Int :=
  stockHelper.exec [.reset, .append ⟨1, 10⟩]

/-- The editor `editRow(0)` returns on the sample helper. -/
def stockEditor : ItemDataEditor Stock Int :=
  { data := 0
    callback := fun h => h.rowDataReseted 0
    deleteLaterCalled := false }

/-- The sample editor once `apply()` has run. -/
def stockEditorApplied : ItemDataEditor Stock Int :=
  { stockEditor with deleteLaterCalled := true }

/-- The sample helper after `reset()` and three `append` calls. -/
def stockRows : AbstractModelHelper Stock Int :=
  stockHelper.exec [.reset, .append ⟨1, 10⟩, .append ⟨2, 20⟩, .append ⟨3, 30⟩]

/-- The sample helper with one row, whose record was then assigned through an
editor that has not been applied. -/
def stockEdited : AbstractModelHelper Stock Int :=
  stockHelper.exec [.reset, .append ⟨1, 10⟩, .assign 0 ⟨7, 70⟩]

/-! ## Lemmas on the Qt side -/

namespace QStandardItem

variable {U : Type}

theorem find_store (vs : List (Int × QVariant U)) (k : Int) (v : U) :
    find (store vs k (some v)) k = some v := by
  induction vs with
  | nil => simp [store, find]
  | cons p rest ih =>
    obtain ⟨r, w⟩ := p
    by_cases h : r = k
    · simp [store, find, h]
    · simp [store, find, h, ih]

theorem store_store (vs : List (Int × QVariant U)) (k : Int) (v w : U) :
    store (store vs k (some v)) k (some w) = store vs k (some w) := by
  induction vs with
  | nil => simp [store]
  | cons p rest ih =>
    obtain ⟨r, x⟩ := p
    by_cases h : r = k
    · simp [store, h]
    · simp [store, h, ih]

end QStandardItem

/-! ## Lemmas on casters -/

namespace ModelCaster

variable {T U : Type}

theorem next_columnLaw {E : Type} [QMetaType U E] (ptr : Option (FieldRef T E)) (role : Int)
    (editable : Bool) :
    ColumnLaw
      (fun (data : T) (item : QStandardItem U) =>
        let item1 :=
          match ptr with
          | some p => item.setData (some (QMetaType.fromValue (p.get data))) role
          | none => item
        item1.setEditable editable)
      (fun (data : T) (item : Option (QStandardItem U)) =>
        match ptr with
        | some p =>
          match item with
          | some it => Except.ok (p.set data (QMetaType.value (it.data role)))
          | none => Except.error QtFailure.nullItem
        | none => Except.ok data) := by
  cases ptr with
  | none =>
    exact ⟨fun _ _ _ => rfl, fun d _ => ⟨d, rfl⟩, fun _ _ => rfl⟩
  | some p =>
    refine ⟨?_, fun d it => ⟨_, rfl⟩, ?_⟩
    · intro d d1 it
      simp [QStandardItem.setEditable, QStandardItem.setData, QStandardItem.store_store]
    · intro d it
      have h : ((it.setData (some (QMetaType.fromValue (p.get d))) role).setEditable
          editable).data role = some (QMetaType.fromValue (p.get d)) := by
        simp [QStandardItem.setEditable, QStandardItem.data, QStandardItem.setData,
          QStandardItem.find_store]
      simp only [h, QMetaType.value_fromValue, p.set_get]

theorem nextNoData_columnLaw (editable : Bool) :
    ColumnLaw (fun (_ : T) (item : QStandardItem U) => item.setEditable editable)
      (fun (data : T) (_ : Option (QStandardItem U)) => Except.ok data) :=
  ⟨fun _ _ _ => rfl, fun d _ => ⟨d, rfl⟩, fun _ _ => rfl⟩

theorem lawful_snoc (c : ModelCaster T U) (s0 : T → QStandardItem U → QStandardItem U)
    (g0 : T → Option (QStandardItem U) → Except QtFailure T) (hc : c.Lawful)
    (h0 : ColumnLaw s0 g0) :
    Lawful (⟨c.setters ++ [s0], c.getters ++ [g0]⟩ : ModelCaster T U) := by
  obtain ⟨hlen, hlaw⟩ := hc
  refine ⟨by simp [hlen], ?_⟩
  intro j s g hs hg
  by_cases hj : j < c.setters.length
  · rw [List.getElem?_append_left hj] at hs
    rw [List.getElem?_append_left (by omega)] at hg
    exact hlaw j s g hs hg
  · have hj1 : c.setters.length ≤ j := by omega
    have hj2 : c.getters.length ≤ j := by omega
    rw [List.getElem?_append_right hj1] at hs
    rw [List.getElem?_append_right hj2] at hg
    have hz : j - c.setters.length = 0 := by
      by_contra hne
      have : 1 ≤ j - c.setters.length := by omega
      rw [List.getElem?_eq_none (by simpa using this)] at hs
      cases hs
    rw [hlen] at hg
    rw [hz] at hs hg
    simp at hs hg
    subst hs
    subst hg
    exact h0

theorem FromNext.lawful {c : ModelCaster T U} (h : c.FromNext) : c.Lawful := by
  induction h with
  | empty => exact ⟨rfl, fun j s g hs _ => by simp [ModelCaster.empty] at hs⟩
  | next c ptr role editable _ ih => exact lawful_snoc c _ _ ih (next_columnLaw ptr role editable)
  | nextNoData c editable _ ih => exact lawful_snoc c _ _ ih (nextNoData_columnLaw editable)

end ModelCaster

/-! ## Lemmas on the grid -/

theorem resizeNull_self {α : Type} (l : List (Option α)) : resizeNull l l.length = l := by
  simp [resizeNull]

namespace QStandardItemModel

variable {U : Type}

theorem insertRow_full (m : QStandardItemModel U) (row : Nat) (items : List (QStandardItem U))
    (hrow : row ≤ m.rows.length) (hlen : items.length = m.columns) :
    m.insertRow row items =
      { m with rows := m.rows.take row ++ [items.map some] ++ m.rows.drop row } := by
  have h1 : ¬ m.columns < items.length := by omega
  have h2 : ¬ m.rows.length < row := by omega
  have h3 : resizeNull (items.map some) m.columns = items.map some := by
    have := resizeNull_self (items.map some)
    simpa [hlen] using this
  simp [insertRow, h1, h2, h3]

theorem appendRow_full (m : QStandardItemModel U) (items : List (QStandardItem U))
    (hlen : items.length = m.columns) :
    m.appendRow items = { m with rows := m.rows ++ [items.map some] } := by
  rw [appendRow, insertRow_full m m.rowCount items (le_refl _) hlen]
  simp [rowCount]

theorem prependRow_full (m : QStandardItemModel U) (items : List (QStandardItem U))
    (hlen : items.length = m.columns) :
    m.insertRow 0 items = { m with rows := items.map some :: m.rows } := by
  rw [insertRow_full m 0 items (Nat.zero_le _) hlen]
  simp

theorem removeRow_inRange (m : QStandardItemModel U) (i : Nat) (h : i < m.rows.length) :
    m.removeRow (i : Int) = (true, { m with rows := m.rows.eraseIdx i }) := by
  have h1 : ¬ ((i : Int) < 0 ∨ (m.rowCount : Int) < (i : Int) + 1) := by
    simp only [rowCount]
    omega
  simp [removeRow, h1]

theorem removeRow_outOfRange (m : QStandardItemModel U) (index : Int)
    (h : index < 0 ∨ (m.rows.length : Int) ≤ index) : m.removeRow index = (false, m) := by
  have h1 : index < 0 ∨ (m.rowCount : Int) < index + 1 := by
    simp only [rowCount]
    omega
  simp [removeRow, h1]

end QStandardItemModel

namespace QList

theorem at?_natCast {α : Type} (l : List α) (i : Nat) : at? l (i : Int) = l[i]? := by
  simp [at?]

theorem at?_some {α : Type} (l : List α) (index : Int) (x : α) (h : at? l index = some x) :
    0 ≤ index ∧ index.toNat < l.length ∧ l[index.toNat]? = some x := by
  unfold at? at h
  split at h
  · rename_i h0
    refine ⟨h0, ?_, h⟩
    by_contra hlt
    rw [List.getElem?_eq_none (by omega)] at h
    cases h
  · cases h

theorem takeAt_inRange {α : Type} (l : List α) (i : Nat) (x : α) (h : l[i]? = some x) :
    takeAt l (i : Int) = .ok (x, l.eraseIdx i) := by
  have hlt : i < l.length := by
    by_contra hge
    rw [List.getElem?_eq_none (by omega)] at h
    cases h
  have hc : 0 ≤ (i : Int) ∧ (i : Int).toNat < l.length := ⟨by omega, by simpa using hlt⟩
  rw [List.getElem?_eq_getElem hlt] at h
  simp only [Option.some.injEq] at h
  simp [takeAt, hlt, h]

theorem takeAt_outOfRange {α : Type} (l : List α) (index : Int)
    (h : index < 0 ∨ (l.length : Int) ≤ index) : takeAt l index = .error .indexOutOfRange := by
  have hc : ¬ (0 ≤ index ∧ index.toNat < l.length) := by omega
  simp [takeAt, hc]

theorem takeAt_ok {α : Type} (l : List α) (index : Int) (x : α) (rest : List α)
    (h : takeAt l index = .ok (x, rest)) :
    0 ≤ index ∧ l[index.toNat]? = some x ∧ rest = l.eraseIdx index.toNat := by
  unfold takeAt at h
  split at h
  · rename_i hc
    simp only [Except.ok.injEq, Prod.mk.injEq] at h
    refine ⟨hc.1, ?_, h.2.symm⟩
    rw [List.getElem?_eq_getElem hc.2, ← h.1]
    rfl
  · cases h

end QList

/-! ## Lemmas on the row operations -/

namespace AbstractModelHelper

variable {T U : Type}

theorem newItems_eq (setters : List (T → QStandardItem U → QStandardItem U)) (d : T) :
    ∀ (n i : Nat), i + n ≤ setters.length →
      newItems setters d n i =
        .ok (((setters.drop i).take n).map (fun s => s d QStandardItem.new)) := by
  intro n
  induction n with
  | zero => intro i _; simp [newItems]
  | succ n ih =>
    intro i hi
    have hlt : i < setters.length := by omega
    have hget : setters[i]? = some setters[i] := List.getElem?_eq_getElem hlt
    have hdrop : setters.drop i = setters[i] :: setters.drop (i + 1) :=
      List.drop_eq_getElem_cons hlt
    simp only [newItems, hget, ih (i + 1) (by omega), hdrop, List.take_succ_cons, List.map_cons]

theorem newItems_ok (setters : List (T → QStandardItem U → QStandardItem U)) (d : T) :
    ∀ (n i : Nat) (items : List (QStandardItem U)),
      newItems setters d n i = .ok items → n = 0 ∨ i + n ≤ setters.length := by
  intro n
  induction n with
  | zero => intro _ _ _; exact Or.inl rfl
  | succ n ih =>
    intro i items h
    right
    unfold newItems at h
    split at h
    · cases h
    · rename_i s hs
      split at h
      · cases h
      · rename_i items1 h1
        have hlt : i < setters.length := by
          by_contra hge
          rw [List.getElem?_eq_none (by omega)] at hs
          cases hs
        rcases ih (i + 1) items1 h1 with h0 | hle
        · omega
        · omega

theorem newItems_columns (e : AbstractModelHelper T U) (d : T)
    (h : e.model.columns ≤ e.modelCaster.setters.length) :
    newItems e.modelCaster.setters d e.model.columns 0 =
      .ok ((e.modelCaster.setters.take e.model.columns).map
        (fun s => s d QStandardItem.new)) := by
  rw [newItems_eq _ _ _ _ (by omega)]
  simp

theorem append_eq (e : AbstractModelHelper T U) (d : T)
    (h : e.model.columns ≤ e.modelCaster.setters.length) :
    e.append d =
      (.ok (e.model.rows.length : Int),
        { e with
          data := e.data ++ [d]
          model := { e.model with
            rows := e.model.rows ++
              [buildRow (e.modelCaster.setters.take e.model.columns) d] } }) := by
  have hn := newItems_columns e d h
  have hlen : ((e.modelCaster.setters.take e.model.columns).map
      (fun s => s d QStandardItem.new)).length = e.model.columns := by
    simp [h]
  simp only [append, QStandardItemModel.columnCount, hn]
  rw [QStandardItemModel.appendRow_full _ _ hlen]
  simp [QStandardItemModel.rowCount, buildRow]
  rfl

theorem prepend_eq (e : AbstractModelHelper T U) (d : T)
    (h : e.model.columns ≤ e.modelCaster.setters.length) :
    e.prepend d =
      (.ok (),
        { e with
          data := d :: e.data
          model := { e.model with
            rows := buildRow (e.modelCaster.setters.take e.model.columns) d ::
              e.model.rows } }) := by
  have hn := newItems_columns e d h
  have hlen : ((e.modelCaster.setters.take e.model.columns).map
      (fun s => s d QStandardItem.new)).length = e.model.columns := by
    simp [h]
  simp only [prepend, QStandardItemModel.columnCount, hn]
  rw [QStandardItemModel.prependRow_full _ _ hlen]
  simp [buildRow]
  rfl

theorem takeRow_inRange (e : AbstractModelHelper T U) (i : Nat) (d : T)
    (hsync : e.data.length = e.model.rows.length) (hd : e.data[i]? = some d) :
    e.takeRow (i : Int) =
      (.ok d,
        { e with
          data := e.data.eraseIdx i
          model := { e.model with rows := e.model.rows.eraseIdx i } }) := by
  have hlt : i < e.data.length := by
    by_contra hge
    rw [List.getElem?_eq_none (by omega)] at hd
    cases hd
  simp [takeRow, QStandardItemModel.removeRow_inRange e.model i (by omega),
    QList.takeAt_inRange e.data i d hd]

theorem takeRow_outOfRange (e : AbstractModelHelper T U) (index : Int)
    (hsync : e.data.length = e.model.rows.length)
    (h : index < 0 ∨ (e.model.rowCount : Int) ≤ index) :
    e.takeRow index = (.error .indexOutOfRange, e) := by
  have h1 : index < 0 ∨ (e.model.rows.length : Int) ≤ index := h
  have h2 : index < 0 ∨ (e.data.length : Int) ≤ index := by
    rw [hsync]
    exact h1
  simp [takeRow, QStandardItemModel.removeRow_outOfRange e.model index h1,
    QList.takeAt_outOfRange e.data index h2]

end AbstractModelHelper

/-! ## Lemmas on the cell loops -/

theorem set_eq_self {α : Type} (l : List α) (i : Nat) (x : α) (h : l[i]? = some x) :
    l.set i x = l := by
  induction l generalizing i with
  | nil => rfl
  | cons a l ih =>
    cases i with
    | zero =>
      simp at h
      simp [h]
    | succ i =>
      simp at h
      simp [ih i h]

theorem set_append_cons {α : Type} (pre : List α) (x y : α) (rest : List α) :
    (pre ++ x :: rest).set pre.length y = pre ++ y :: rest := by
  induction pre with
  | nil => rfl
  | cons a pre ih => simp [ih]

theorem getElem?_append_cons {α : Type} (pre : List α) (x : α) (rest : List α) :
    (pre ++ x :: rest)[pre.length]? = some x := by
  induction pre with
  | nil => simp
  | cons a pre ih => simpa using ih

theorem getElem?_set_of_some {α : Type} (l : List α) (i : Nat) (x y : α) (h : l[i]? = some x) :
    (l.set i y)[i]? = some y := by
  induction l generalizing i with
  | nil => simp at h
  | cons a l ih =>
    cases i with
    | zero => simp
    | succ i =>
      simp at h
      simpa using ih i h

theorem zipWith_take_map {α β γ : Type} (f : α → β → γ) (g : α → β) (l : List α) :
    ∀ n : Nat, List.zipWith f l ((l.take n).map g) = (l.take n).map (fun a => f a (g a)) := by
  induction l with
  | nil => intro n; simp
  | cons a l ih =>
    intro n
    cases n with
    | zero => simp
    | succ n => simpa using ih n

namespace QStandardItemModel

variable {U : Type}

theorem item_eq (m : QStandardItemModel U) (i j : Nat) (row : List (Option (QStandardItem U)))
    (h : m.rows[i]? = some row) : m.item (i : Int) j = (row[j]?).join := by
  have h0 : ¬ ((i : Int) < 0) := by omega
  simp [item, h0, h]

theorem putItem_eq (m : QStandardItemModel U) (i j : Nat)
    (row : List (Option (QStandardItem U))) (it : QStandardItem U)
    (h : m.rows[i]? = some row) :
    m.putItem i j it = { m with rows := m.rows.set i (row.set j (some it)) } := by
  simp [putItem, h]

end QStandardItemModel

namespace ModelCaster

variable {T U : Type}

theorem Lawful.overwrite_mem {c : ModelCaster T U} (hc : c.Lawful)
    (s : T → QStandardItem U → QStandardItem U) (hs : s ∈ c.setters) (d d1 : T)
    (it : QStandardItem U) : s d1 (s d it) = s d1 it := by
  obtain ⟨j, hj, rfl⟩ := List.getElem_of_mem hs
  have hg : j < c.getters.length := by rw [hc.1]; exact hj
  exact (hc.2 j _ _ (List.getElem?_eq_getElem hj) (List.getElem?_eq_getElem hg)).overwrite d d1 it

end ModelCaster

namespace AbstractModelHelper

variable {T U : Type}

theorem resetCols_frame (rowIndex : Int) :
    ∀ (n j : Nat) (e : AbstractModelHelper T U),
      (resetCols rowIndex n j e).2.data = e.data ∧
      (resetCols rowIndex n j e).2.modelCaster = e.modelCaster ∧
      (resetCols rowIndex n j e).2.getHeaders = e.getHeaders ∧
      (resetCols rowIndex n j e).2.headerCreated = e.headerCreated ∧
      (resetCols rowIndex n j e).2.model.columns = e.model.columns ∧
      (resetCols rowIndex n j e).2.model.rows.length = e.model.rows.length := by
  intro n
  induction n with
  | zero => intro j e; simp [resetCols]
  | succ n ih =>
    intro j e
    unfold resetCols
    split
    · simp
    · split
      · simp
      · split
        · simp
        · rename_i s _ _ d _ _ it _
          have h := ih (j + 1) { e with model := e.model.putItem rowIndex.toNat j (s d it) }
          refine ⟨h.1, h.2.1, h.2.2.1, h.2.2.2.1, ?_, ?_⟩
          · rw [h.2.2.2.2.1]
            simp only [QStandardItemModel.putItem]
            split <;> rfl
          · rw [h.2.2.2.2.2]
            simp only [QStandardItemModel.putItem]
            split <;> simp

theorem updateCols_frame (row : Int) :
    ∀ (n j : Nat) (e : AbstractModelHelper T U),
      (updateCols row n j e).2.model = e.model ∧
      (updateCols row n j e).2.modelCaster = e.modelCaster ∧
      (updateCols row n j e).2.getHeaders = e.getHeaders ∧
      (updateCols row n j e).2.headerCreated = e.headerCreated ∧
      (updateCols row n j e).2.data.length = e.data.length := by
  intro n
  induction n with
  | zero => intro j e; simp [updateCols]
  | succ n ih =>
    intro j e
    unfold updateCols
    split
    · simp
    · split
      · simp
      · split
        · simp
        · rename_i d1 _
          have h := ih (j + 1) { e with data := e.data.set row.toNat d1 }
          refine ⟨h.1, h.2.1, h.2.2.1, h.2.2.2.1, ?_⟩
          rw [h.2.2.2.2]
          simp

theorem updateRows_frame (colSize : Nat) :
    ∀ (n i : Nat) (e : AbstractModelHelper T U),
      (updateRows colSize n i e).2.model = e.model ∧
      (updateRows colSize n i e).2.modelCaster = e.modelCaster ∧
      (updateRows colSize n i e).2.getHeaders = e.getHeaders ∧
      (updateRows colSize n i e).2.headerCreated = e.headerCreated ∧
      (updateRows colSize n i e).2.data.length = e.data.length := by
  intro n
  induction n with
  | zero => intro i e; simp [updateRows]
  | succ n ih =>
    intro i e
    have hc := updateCols_frame (i : Int) colSize 0 e
    unfold updateRows
    split
    · rename_i f e1 heq
      rw [heq] at hc
      exact hc
    · rename_i u e1 heq
      rw [heq] at hc
      have h := ih (i + 1) e1
      exact ⟨h.1.trans hc.1, h.2.1.trans hc.2.1, h.2.2.1.trans hc.2.2.1,
        h.2.2.2.1.trans hc.2.2.2.1, h.2.2.2.2.trans hc.2.2.2.2⟩

end AbstractModelHelper

namespace AbstractModelHelper

variable {T U : Type}

theorem resetCols_spec (i : Nat) (d : T) :
    ∀ (n j : Nat) (e : AbstractModelHelper T U) (pre : List (Option (QStandardItem U)))
      (its : List (QStandardItem U)),
      e.data[i]? = some d → e.model.rows[i]? = some (pre ++ its.map some) →
      pre.length = j → its.length = n → j + n ≤ e.modelCaster.setters.length →
      resetCols (i : Int) n j e =
        (.ok (),
          { e with
            model := { e.model with
              rows := e.model.rows.set i
                (pre ++ List.zipWith (fun s it => some (s d it))
                  (e.modelCaster.setters.drop j) its) } }) := by
  intro n
  induction n with
  | zero =>
    intro j e pre its _ hrow _ hn _
    have hnil : its = [] := List.length_eq_zero.mp hn
    subst hnil
    have hset : e.model.rows.set i pre = e.model.rows := by
      apply set_eq_self
      simpa using hrow
    simp [resetCols, hset]
  | succ n ih =>
    intro j e pre its hd hrow hpre hn hs
    subst hpre
    cases its with
    | nil => simp at hn
    | cons it its1 =>
      have hlt : pre.length < e.modelCaster.setters.length := by omega
      have hget : e.modelCaster.setters[pre.length]? = some e.modelCaster.setters[pre.length] :=
        List.getElem?_eq_getElem hlt
      have hdrop : e.modelCaster.setters.drop pre.length =
          e.modelCaster.setters[pre.length] :: e.modelCaster.setters.drop (pre.length + 1) :=
        List.drop_eq_getElem_cons hlt
      have hat : QList.at? e.data (i : Int) = some d := by
        rw [QList.at?_natCast]
        exact hd
      have hrow1 : e.model.rows[i]? = some (pre ++ some it :: its1.map some) := by
        simpa using hrow
      have hitem : e.model.item (i : Int) pre.length = some it := by
        rw [QStandardItemModel.item_eq e.model i pre.length _ hrow1, getElem?_append_cons]
        rfl
      generalize hsj : e.modelCaster.setters[pre.length] = sj at hget hdrop
      have hput : e.model.putItem i pre.length (sj d it) =
          { e.model with
            rows := e.model.rows.set i (pre ++ some (sj d it) :: its1.map some) } := by
        rw [QStandardItemModel.putItem_eq e.model i pre.length _ _ hrow1, set_append_cons]
      have hrow2 : (e.model.rows.set i (pre ++ some (sj d it) :: its1.map some))[i]? =
          some ((pre ++ [some (sj d it)]) ++ its1.map some) := by
        rw [getElem?_set_of_some _ _ _ _ hrow1]
        simp
      have hlen1 : (pre ++ [some (sj d it)]).length = pre.length + 1 := by simp
      have hn1 : its1.length = n := by simpa using hn
      have hstep := ih (pre.length + 1)
        { e with
          model := { e.model with
            rows := e.model.rows.set i (pre ++ some (sj d it) :: its1.map some) } }
        (pre ++ [some (sj d it)]) its1 hd hrow2 hlen1 hn1 (by
          show pre.length + 1 + n ≤ e.modelCaster.setters.length
          omega)
      unfold resetCols
      simp only [hget, hat, hitem, Int.toNat_ofNat, hput]
      rw [hstep]
      simp only [hdrop, List.set_set, List.zipWith_cons_cons, List.append_assoc,
        List.singleton_append]

theorem updateCols_writeBack (i : Nat) (row : List (Option (QStandardItem U))) :
    ∀ (n j : Nat) (e : AbstractModelHelper T U) (d d1 : T),
      e.data[i]? = some d → e.model.rows[i]? = some row →
      j + n ≤ row.length → j + n ≤ e.modelCaster.getters.length →
      writeBackRow ((e.modelCaster.getters.drop j).take n) d ((row.drop j).take n) = .ok d1 →
      updateCols (i : Int) n j e = (.ok (), { e with data := e.data.set i d1 }) := by
  intro n
  induction n with
  | zero =>
    intro j e d d1 hd _ _ _ hwb
    simp only [List.take_zero, writeBackRow, Except.ok.injEq] at hwb
    subst hwb
    simp [updateCols, set_eq_self e.data i d hd]
  | succ n ih =>
    intro j e d d1 hd hrow hj hg hwb
    have hlt : j < e.modelCaster.getters.length := by omega
    have hjl : j < row.length := by omega
    have hget : e.modelCaster.getters[j]? = some e.modelCaster.getters[j] :=
      List.getElem?_eq_getElem hlt
    have hat : QList.at? e.data (i : Int) = some d := by
      rw [QList.at?_natCast]
      exact hd
    have hitem : e.model.item (i : Int) j = row[j] := by
      rw [QStandardItemModel.item_eq e.model i j _ hrow, List.getElem?_eq_getElem hjl]
      rfl
    rw [List.drop_eq_getElem_cons hlt, List.drop_eq_getElem_cons hjl, List.take_succ_cons,
      List.take_succ_cons] at hwb
    unfold writeBackRow at hwb
    unfold updateCols
    simp only [hget, hat, hitem, Int.toNat_ofNat]
    split at hwb
    · cases hwb
    · rename_i d2 hd2
      have hd' : (e.data.set i d2)[i]? = some d2 := getElem?_set_of_some _ _ _ _ hd
      rw [ih (j + 1) { e with data := e.data.set i d2 } d2 d1 hd' hrow (by omega)
        (by simpa using (by omega : j + 1 + n ≤ e.modelCaster.getters.length)) hwb]
      simp [List.set_set]

theorem writeBackRow_exists :
    ∀ (gs : List (T → Option (QStandardItem U) → Except QtFailure T))
      (its : List (QStandardItem U)) (d : T),
      (∀ g ∈ gs, ∀ (d0 : T) (it : QStandardItem U), ∃ d1, g d0 (some it) = .ok d1) →
      ∃ d1, writeBackRow gs d (its.map some) = .ok d1 := by
  intro gs
  induction gs with
  | nil => intro its d _; exact ⟨d, by simp [writeBackRow]⟩
  | cons g gs ih =>
    intro its d hread
    cases its with
    | nil => exact ⟨d, by simp [writeBackRow]⟩
    | cons it its =>
      obtain ⟨d2, hd2⟩ := hread g (List.mem_cons_self _ _) d it
      obtain ⟨d1, hd1⟩ := ih its d2 (fun g1 hg1 => hread g1 (List.mem_cons_of_mem _ hg1))
      exact ⟨d1, by simp [writeBackRow, hd2, hd1]⟩

theorem updateCols_aligned (i : Nat) (d : T) :
    ∀ (n j : Nat) (e : AbstractModelHelper T U),
      e.modelCaster.Lawful →
      e.data[i]? = some d →
      e.model.rows[i]? = some (buildRow (e.modelCaster.setters.take e.model.columns) d) →
      e.model.columns ≤ e.modelCaster.setters.length →
      j + n ≤ e.model.columns →
      updateCols (i : Int) n j e = (.ok (), e) := by
  intro n
  induction n with
  | zero => intro j e _ _ _ _ _; simp [updateCols]
  | succ n ih =>
    intro j e hc hd hrow hcols hj
    have hs : j < e.modelCaster.setters.length := by omega
    have hg : j < e.modelCaster.getters.length := by rw [hc.1]; exact hs
    have hgetS : e.modelCaster.setters[j]? = some e.modelCaster.setters[j] :=
      List.getElem?_eq_getElem hs
    have hgetG : e.modelCaster.getters[j]? = some e.modelCaster.getters[j] :=
      List.getElem?_eq_getElem hg
    have hat : QList.at? e.data (i : Int) = some d := by
      rw [QList.at?_natCast]
      exact hd
    have hitem : e.model.item (i : Int) j =
        some (e.modelCaster.setters[j] d QStandardItem.new) := by
      rw [QStandardItemModel.item_eq e.model i j _ hrow]
      have hjc : j < e.model.columns := by omega
      rw [buildRow, List.getElem?_map, List.getElem?_take_of_lt hjc, hgetS]
      rfl
    have hrt := (hc.2 j _ _ hgetS hgetG).roundTrip d QStandardItem.new
    have hself : ({ e with data := e.data.set i d } : AbstractModelHelper T U) = e := by
      rw [set_eq_self e.data i d hd]
    unfold updateCols
    simp only [hgetG, hat, hitem, hrt, Int.toNat_ofNat, hself]
    exact ih (j + 1) e hc hd hrow hcols (by omega)

end AbstractModelHelper

/-! ## Lemmas on `reset`, `rowDataReseted` and `update(int)` -/

namespace AbstractModelHelper

variable {T U : Type}

theorem setHeaderLabels_frame :
    ∀ (hs : List String) (m : QStandardItemModel U) (col : Nat),
      (setHeaderLabels m hs col).columns = m.columns ∧
        (setHeaderLabels m hs col).rows = m.rows := by
  intro hs
  induction hs with
  | nil => intro m col; exact ⟨rfl, rfl⟩
  | cons h hs ih =>
    intro m col
    have h1 := ih (m.setHeaderData col h) (col + 1)
    have h2 : (m.setHeaderData col h).columns = m.columns ∧
        (m.setHeaderData col h).rows = m.rows := by
      unfold QStandardItemModel.setHeaderData
      split <;> exact ⟨rfl, rfl⟩
    exact ⟨h1.1.trans h2.1, h1.2.trans h2.2⟩

theorem reset_columns (e : AbstractModelHelper T U) :
    e.reset.model.columns = if e.getHeaders = [] then 1 else e.getHeaders.length := by
  cases hh : e.getHeaders with
  | nil => simp [reset, createHeader, onHeaderCreated, hh, QStandardItemModel.setColumnCount]
  | cons h hs =>
    simp [reset, createHeader, onHeaderCreated, hh, setHeaderLabels_frame,
      QStandardItemModel.setColumnCount]

theorem reset_rows (e : AbstractModelHelper T U) : e.reset.model.rows = [] := by
  cases hh : e.getHeaders with
  | nil =>
    simp [reset, createHeader, onHeaderCreated, hh, QStandardItemModel.setColumnCount,
      QStandardItemModel.clear]
  | cons h hs =>
    simp [reset, createHeader, onHeaderCreated, hh, setHeaderLabels_frame,
      QStandardItemModel.setColumnCount, QStandardItemModel.clear]

theorem reset_data (e : AbstractModelHelper T U) : e.reset.data = [] := rfl

theorem reset_modelCaster (e : AbstractModelHelper T U) : e.reset.modelCaster = e.modelCaster :=
  rfl

theorem rowDataReseted_eq (e : AbstractModelHelper T U) (hw : e.WellFormed) (i : Nat) (d : T)
    (hd : e.data[i]? = some d) :
    e.rowDataReseted (i : Int) =
      (.ok (),
        { e with
          model := { e.model with
            rows := e.model.rows.set i
              (buildRow (e.modelCaster.setters.take e.model.columns) d) } }) := by
  have hlt : i < e.model.rows.length := by
    rw [← hw.sync]
    by_contra hge
    rw [List.getElem?_eq_none (by omega)] at hd
    cases hd
  have hne : e.model.rows ≠ [] := by
    intro h0
    rw [h0] at hlt
    simp at hlt
  have hcols := hw.cols hne
  obtain ⟨d0, hd0⟩ := hw.built _ (List.getElem_mem hlt)
  have hrow : e.model.rows[i]? =
      some ([] ++ ((e.modelCaster.setters.take e.model.columns).map
        (fun s => s d0 QStandardItem.new)).map some) := by
    rw [List.getElem?_eq_getElem hlt, hd0]
    simp [buildRow]
    rfl
  have hspec := resetCols_spec i d e.model.columns 0 e [] _ hd hrow rfl (by simp [hcols])
    (by omega)
  rw [rowDataReseted, QStandardItemModel.columnCount, hspec]
  have hz : List.zipWith (fun s it => some (s d it)) (e.modelCaster.setters.drop 0)
      ((e.modelCaster.setters.take e.model.columns).map (fun s => s d0 QStandardItem.new)) =
      buildRow (e.modelCaster.setters.take e.model.columns) d := by
    rw [List.drop_zero, zipWith_take_map, buildRow]
    apply List.map_congr_left
    intro s hs
    rw [hw.caster.lawful.overwrite_mem s (List.mem_of_mem_take hs)]
  rw [hz]
  simp

theorem updateRow_writeBack (e : AbstractModelHelper T U) (hw : e.WellFormed) (i : Nat) (d : T)
    (row : List (Option (QStandardItem U)))
    (hd : e.data[i]? = some d) (hrow : e.model.rows[i]? = some row) :
    ∃ d1, writeBackRow (e.modelCaster.getters.take e.model.columns) d row = .ok d1 ∧
      e.updateRow (i : Int) = (.ok (), { e with data := e.data.set i d1 }) := by
  have hlt : i < e.model.rows.length := by
    by_contra hge
    rw [List.getElem?_eq_none (by omega)] at hrow
    cases hrow
  have hne : e.model.rows ≠ [] := by
    intro h0
    rw [h0] at hlt
    simp at hlt
  have hcols := hw.cols hne
  have hc := hw.caster.lawful
  have hmem : row ∈ e.model.rows := by
    rw [List.getElem?_eq_getElem hlt] at hrow
    cases hrow
    exact List.getElem_mem hlt
  obtain ⟨d0, hd0⟩ := hw.built _ hmem
  have hrowlen : row.length = e.model.columns := by
    rw [hd0]
    simp [buildRow, hcols]
  have hmap : row = ((e.modelCaster.setters.take e.model.columns).map
      (fun s => s d0 QStandardItem.new)).map some := by
    rw [hd0]
    simp [buildRow]
    rfl
  have hread : ∀ g ∈ e.modelCaster.getters.take e.model.columns,
      ∀ (d0 : T) (it : QStandardItem U), ∃ d1, g d0 (some it) = .ok d1 := by
    intro g hg d0 it
    obtain ⟨k, hk, rfl⟩ := List.getElem_of_mem (List.mem_of_mem_take hg)
    have hks : k < e.modelCaster.setters.length := by rw [← hc.1]; exact hk
    exact (hc.2 k _ _ (List.getElem?_eq_getElem hks) (List.getElem?_eq_getElem hk)).readable d0 it
  obtain ⟨d1, hd1⟩ := writeBackRow_exists _ _ d hread
  rw [← hmap] at hd1
  refine ⟨d1, hd1, ?_⟩
  apply updateCols_writeBack i row e.model.columns 0 e d d1 hd hrow (by omega)
    (by rw [hc.1]; omega)
  rw [List.drop_zero, List.drop_zero, ← hrowlen, List.take_length, hrowlen]
  exact hd1

theorem updateRow_aligned (e : AbstractModelHelper T U) (hw : e.WellFormed) (i : Nat) (d : T)
    (hd : e.data[i]? = some d)
    (hrow : e.model.rows[i]? =
      some (buildRow (e.modelCaster.setters.take e.model.columns) d)) :
    e.updateRow (i : Int) = (.ok (), e) := by
  have hne : e.model.rows ≠ [] := by
    intro h0
    rw [h0] at hrow
    simp at hrow
  exact updateCols_aligned i d e.model.columns 0 e hw.caster.lawful hd hrow (hw.cols hne)
    (by omega)

end AbstractModelHelper

/-! ## The shape of a helper in use is kept by every call that returns -/

theorem Outcome.discard_ok {T U α : Type} (o : Outcome T U α) (e1 : AbstractModelHelper T U)
    (h : Outcome.discard o = (.ok (), e1)) : ∃ r, o = (.ok r, e1) := by
  obtain ⟨r, e2⟩ := o
  cases r with
  | error f => simp [Outcome.discard] at h
  | ok r =>
    simp [Outcome.discard] at h
    exact ⟨r, by rw [h]⟩

namespace AbstractModelHelper

variable {T U : Type}

theorem wellFormed_init (c : ModelCaster T U) (headers : List String) (hc : c.FromNext) :
    (init c headers).WellFormed :=
  ⟨rfl, hc, fun h => absurd rfl h, fun row hrow => by
    simp [init, QStandardItemModel.empty] at hrow⟩

theorem wellFormed_reset (e : AbstractModelHelper T U) (hw : e.WellFormed) :
    e.reset.WellFormed := by
  refine ⟨?_, hw.caster, ?_, ?_⟩
  · rw [reset_rows, reset_data]
    rfl
  · intro h
    exact absurd (reset_rows e) h
  · intro row hrow
    rw [reset_rows] at hrow
    cases hrow

theorem wellFormed_of_frame (e e1 : AbstractModelHelper T U) (hw : e.WellFormed)
    (hm : e1.model = e.model) (hc : e1.modelCaster = e.modelCaster)
    (hl : e1.data.length = e.data.length) : e1.WellFormed := by
  refine ⟨?_, ?_, ?_, ?_⟩
  · rw [hl, hm]
    exact hw.sync
  · rw [hc]
    exact hw.caster
  · rw [hm, hc]
    exact hw.cols
  · rw [hm, hc]
    exact hw.built

theorem append_ok_columns (e : AbstractModelHelper T U) (d : T) (r : Int)
    (e1 : AbstractModelHelper T U) (h : e.append d = (.ok r, e1)) :
    e.model.columns ≤ e.modelCaster.setters.length := by
  unfold append at h
  simp only [QStandardItemModel.columnCount] at h
  split at h
  · simp at h
  · rename_i items hn
    rcases newItems_ok _ _ _ _ _ hn with h0 | hle
    · omega
    · omega

theorem prepend_ok_columns (e : AbstractModelHelper T U) (d : T)
    (e1 : AbstractModelHelper T U) (h : e.prepend d = (.ok (), e1)) :
    e.model.columns ≤ e.modelCaster.setters.length := by
  unfold prepend at h
  simp only [QStandardItemModel.columnCount] at h
  split at h
  · simp at h
  · rename_i items hn
    rcases newItems_ok _ _ _ _ _ hn with h0 | hle
    · omega
    · omega

theorem wellFormed_append (e : AbstractModelHelper T U) (hw : e.WellFormed) (d : T) (r : Int)
    (e1 : AbstractModelHelper T U) (h : e.append d = (.ok r, e1)) : e1.WellFormed := by
  have hcols := append_ok_columns e d r e1 h
  rw [append_eq e d hcols] at h
  have he : e1 = _ := (Prod.mk.inj h).2.symm
  subst he
  refine ⟨?_, hw.caster, fun _ => hcols, ?_⟩
  · simp [hw.sync]
  · intro row hrow
    simp only [List.mem_append, List.mem_singleton] at hrow
    rcases hrow with hold | hnew
    · exact hw.built row hold
    · exact ⟨d, hnew⟩

theorem wellFormed_prepend (e : AbstractModelHelper T U) (hw : e.WellFormed) (d : T)
    (e1 : AbstractModelHelper T U) (h : e.prepend d = (.ok (), e1)) : e1.WellFormed := by
  have hcols := prepend_ok_columns e d e1 h
  rw [prepend_eq e d hcols] at h
  have he : e1 = _ := (Prod.mk.inj h).2.symm
  subst he
  refine ⟨?_, hw.caster, fun _ => hcols, ?_⟩
  · simp [hw.sync]
  · intro row hrow
    simp only [List.mem_cons] at hrow
    rcases hrow with hnew | hold
    · exact ⟨d, hnew⟩
    · exact hw.built row hold

theorem takeRow_ok (e : AbstractModelHelper T U) (index : Int) (r : T)
    (e1 : AbstractModelHelper T U) (h : e.takeRow index = (.ok r, e1)) :
    0 ≤ index ∧ e.data[index.toNat]? = some r := by
  unfold takeRow at h
  simp only at h
  split at h
  · simp at h
  · rename_i d rest heq
    have hx := QList.takeAt_ok _ _ _ _ heq
    simp only [Prod.mk.injEq, Except.ok.injEq] at h
    refine ⟨hx.1, ?_⟩
    rw [hx.2.1, h.1]

theorem wellFormed_takeRow (e : AbstractModelHelper T U) (hw : e.WellFormed) (index : Int)
    (r : T) (e1 : AbstractModelHelper T U) (h : e.takeRow index = (.ok r, e1)) :
    e1.WellFormed := by
  obtain ⟨h0, hd⟩ := takeRow_ok e index r e1 h
  have hidx : ((index.toNat : Nat) : Int) = index := Int.toNat_of_nonneg h0
  rw [← hidx, takeRow_inRange e index.toNat r hw.sync hd] at h
  have he : e1 = _ := (Prod.mk.inj h).2.symm
  subst he
  refine ⟨?_, hw.caster, ?_, ?_⟩
  · simp [List.length_eraseIdx, hw.sync]
  · intro hne
    apply hw.cols
    intro hnil
    apply hne
    simp [hnil]
  · intro row hrow
    exact hw.built row (List.mem_of_mem_eraseIdx hrow)

theorem editRow_ok (e : AbstractModelHelper T U) (rowIndex : Int) (ed : ItemDataEditor T U)
    (h : e.editRow rowIndex = .ok ed) :
    ed = { data := rowIndex
           callback := fun h => rowDataReseted h rowIndex
           deleteLaterCalled := false } ∧
      ∃ d, 0 ≤ rowIndex ∧ e.data[rowIndex.toNat]? = some d := by
  unfold editRow at h
  split at h
  · cases h
  · rename_i d hd
    have hx := QList.at?_some _ _ _ hd
    simp only [Except.ok.injEq] at h
    exact ⟨h.symm, d, hx.1, hx.2.2⟩

theorem editRow_natCast (e : AbstractModelHelper T U) (i : Nat) (d : T)
    (hd : e.data[i]? = some d) :
    e.editRow (i : Int) =
      .ok { data := (i : Int)
            callback := fun h => rowDataReseted h (i : Int)
            deleteLaterCalled := false } := by
  simp [editRow, QList.at?_natCast, hd]

theorem wellFormed_rowDataReseted (e : AbstractModelHelper T U) (hw : e.WellFormed) (i : Nat)
    (d : T) (hd : e.data[i]? = some d) : (e.rowDataReseted (i : Int)).2.WellFormed := by
  rw [rowDataReseted_eq e hw i d hd]
  refine ⟨?_, hw.caster, ?_, ?_⟩
  · simp [hw.sync]
  · intro hne
    apply hw.cols
    intro hnil
    apply hne
    simp [hnil]
  · intro row hrow
    rcases List.mem_or_eq_of_mem_set hrow with hold | hnew
    · exact hw.built row hold
    · exact ⟨d, hnew⟩

theorem assign_frame (ed : ItemDataEditor T U) (e : AbstractModelHelper T U) (d : T) :
    (ed.assign e d).model = e.model ∧ (ed.assign e d).modelCaster = e.modelCaster ∧
    (ed.assign e d).getHeaders = e.getHeaders ∧
    (ed.assign e d).data.length = e.data.length := by
  unfold ItemDataEditor.assign
  split
  · exact ⟨rfl, rfl, rfl, by simp⟩
  · exact ⟨rfl, rfl, rfl, rfl⟩

theorem wellFormed_step (e : AbstractModelHelper T U) (hw : e.WellFormed) (op : Op T)
    (e1 : AbstractModelHelper T U) (h : e.step op = (.ok (), e1)) : e1.WellFormed := by
  cases op with
  | reset =>
    simp only [step, Prod.mk.injEq, true_and] at h
    rw [← h]
    exact wellFormed_reset e hw
  | append d =>
    obtain ⟨r, hr⟩ := Outcome.discard_ok _ _ h
    exact wellFormed_append e hw d r e1 hr
  | prepend d => exact wellFormed_prepend e hw d e1 h
  | takeRow index =>
    obtain ⟨r, hr⟩ := Outcome.discard_ok _ _ h
    exact wellFormed_takeRow e hw index r e1 hr
  | takeLast =>
    obtain ⟨r, hr⟩ := Outcome.discard_ok _ _ h
    exact wellFormed_takeRow e hw _ r e1 hr
  | takeFirst =>
    obtain ⟨r, hr⟩ := Outcome.discard_ok _ _ h
    exact wellFormed_takeRow e hw _ r e1 hr
  | update =>
    have hf := updateRows_frame e.model.columnCount e.model.rowCount 0 e
    simp only [step, update] at h
    rw [h] at hf
    exact wellFormed_of_frame e e1 hw hf.1 hf.2.1 hf.2.2.2.2
  | updateRow row =>
    have hf := updateCols_frame row e.model.columnCount 0 e
    simp only [step, updateRow] at h
    rw [h] at hf
    exact wellFormed_of_frame e e1 hw hf.1 hf.2.1 hf.2.2.2.2
  | assign rowIndex d =>
    simp only [step] at h
    split at h
    · simp at h
    · rename_i ed hed
      simp only [Prod.mk.injEq, true_and] at h
      rw [← h]
      have hf := assign_frame ed e d
      exact wellFormed_of_frame e _ hw hf.1 hf.2.1 hf.2.2.2
  | commit rowIndex =>
    simp only [step] at h
    split at h
    · simp at h
    · rename_i ed hed
      obtain ⟨hed1, d, h0, hd⟩ := editRow_ok e rowIndex ed hed
      obtain ⟨r, hr⟩ := Outcome.discard_ok _ _ h
      have hidx : ((rowIndex.toNat : Nat) : Int) = rowIndex := Int.toNat_of_nonneg h0
      have hwf := wellFormed_rowDataReseted e hw rowIndex.toNat d hd
      rw [hidx] at hwf
      subst hed1
      simp only [ItemDataEditor.apply] at hr
      split at hr
      · simp at hr
      · rename_i u e2 hcb
        simp only [Prod.mk.injEq] at hr
        rw [hcb] at hwf
        rw [← hr.2]
        exact hwf

theorem Reachable.wellFormed {e : AbstractModelHelper T U} (h : Reachable e) : e.WellFormed := by
  induction h with
  | init c headers hc => exact wellFormed_init c headers hc
  | step e op e1 _ hstep ih => exact wellFormed_step e ih op e1 hstep

end AbstractModelHelper

/-! ## Sample states are states of a helper in use -/

namespace AbstractModelHelper

variable {T U : Type}

theorem Reachable.exec_of_okRun :
    ∀ (ops : List (Op T)) (e : AbstractModelHelper T U),
      Reachable e → okRun e ops = true → Reachable (e.exec ops) := by
  intro ops
  induction ops with
  | nil => intro e h _; exact h
  | cons op ops ih =>
    intro e h hok
    unfold okRun at hok
    unfold exec
    split at hok
    · rename_i u e1 hstep
      cases u
      rw [hstep]
      exact ih e1 (Reachable.step e op e1 h hstep) hok
    · cases hok

end AbstractModelHelper

theorem stockCaster_fromNext : stockCaster.FromNext :=
  ModelCaster.FromNext.next _ _ _ _ (ModelCaster.FromNext.next _ _ _ _ ModelCaster.FromNext.empty)

theorem shortCaster_fromNext : shortCaster.FromNext :=
  ModelCaster.FromNext.next _ _ _ _ ModelCaster.FromNext.empty

theorem reachable_stockRows : AbstractModelHelper.Reachable stockRows :=
  AbstractModelHelper.Reachable.exec_of_okRun _ stockHelper
    (AbstractModelHelper.Reachable.init _ _ stockCaster_fromNext) (by decide)

theorem reachable_stockEdited : AbstractModelHelper.Reachable stockEdited :=
  AbstractModelHelper.Reachable.exec_of_okRun _ stockHelper
    (AbstractModelHelper.Reachable.init _ _ stockCaster_fromNext) (by decide)

/-! ## C8: column count after `reset()` -/

/-- C8. For every helper and every header list `h` its `getHeaders()` returns, after
`reset()` the grid's `columnCount` is `length h` when `h` is not empty and `1`
when it is empty (three titles give 3), and `reset()` makes exactly one call
of the header-created hook, with that column count as argument. -/
theorem reset_columnCount {T U : Type} (e : AbstractModelHelper T U) (h : List String) :
    (h ≠ [] → ({ e with getHeaders := h }).reset.model.columnCount = h.length) ∧
    (h = [] → ({ e with getHeaders := h }).reset.model.columnCount = 1) ∧
    ({ e with getHeaders := ["A", "B", "C"] }).reset.model.columnCount = 3 ∧
    ({ e with getHeaders := h }).reset.headerCreated =
      e.headerCreated ++ [({ e with getHeaders := h }).reset.model.columnCount] := by
  refine ⟨?_, ?_, ?_, rfl⟩
  · intro hne
    rw [QStandardItemModel.columnCount, AbstractModelHelper.reset_columns]
    simp [hne]
  · intro hnil
    rw [QStandardItemModel.columnCount, AbstractModelHelper.reset_columns]
    simp [hnil]
  · rw [QStandardItemModel.columnCount, AbstractModelHelper.reset_columns]
    simp

/-! ## C4: insert ordering -/

namespace AbstractModelHelper

variable {T U : Type}

theorem append_data (e : AbstractModelHelper T U) (d : T) :
    (e.append d).2.data = e.data ++ [d] := by
  unfold append
  simp only
  split <;> rfl

theorem prepend_data (e : AbstractModelHelper T U) (d : T) :
    (e.prepend d).2.data = d :: e.data := by
  unfold prepend
  simp only
  split <;> rfl

end AbstractModelHelper

/-- C4. For every helper with store `s` and every record `r`, `append(r)` leaves the
store `s ++ [r]` and `prepend(r)` leaves `[r] ++ s`; on an empty store,
`append(r1)`, `prepend(r2)`, `append(r3)` leave `[r2, r1, r3]`.  When the
caster covers the columns the calls return, `append` with the index of the
new last row, and so do the three calls of the sequence. -/
theorem insert_ordering {T U : Type} (e : AbstractModelHelper T U) (r r1 r2 r3 : T) :
    (e.append r).2.data = e.data ++ [r] ∧
    (e.prepend r).2.data = [r] ++ e.data ∧
    (e.data = [] → (((e.append r1).2.prepend r2).2.append r3).2.data = [r2, r1, r3]) ∧
    (e.model.columnCount ≤ e.modelCaster.setters.length →
      (e.append r).1 = .ok (e.model.rowCount : Int) ∧ (e.prepend r).1 = .ok () ∧
      (e.append r1).1 = .ok (e.model.rowCount : Int) ∧
      ((e.append r1).2.prepend r2).1 = .ok () ∧
      (((e.append r1).2.prepend r2).2.append r3).1 = .ok ((e.model.rowCount : Int) + 2)) := by
  refine ⟨AbstractModelHelper.append_data e r, AbstractModelHelper.prepend_data e r, ?_, ?_⟩
  · intro hnil
    rw [AbstractModelHelper.append_data, AbstractModelHelper.prepend_data,
      AbstractModelHelper.append_data, hnil]
    rfl
  · intro hcols
    have h0 : e.model.columns ≤ e.modelCaster.setters.length := hcols
    have e1 := AbstractModelHelper.append_eq e r1 h0
    have e2 := AbstractModelHelper.prepend_eq (e.append r1).2 r2 (by rw [e1]; exact h0)
    rw [e1] at e2
    have e3 := AbstractModelHelper.append_eq ((e.append r1).2.prepend r2).2 r3
      (by rw [e1, e2]; exact h0)
    rw [e1, e2] at e3
    refine ⟨?_, ?_, ?_, ?_, ?_⟩
    · rw [AbstractModelHelper.append_eq e r h0]
      rfl
    · rw [AbstractModelHelper.prepend_eq e r h0]
    · rw [e1]
      rfl
    · rw [e1, e2]
    · rw [e1, e2, e3]
      simp only [List.length_cons, List.length_append, List.length_nil,
        QStandardItemModel.rowCount]
      congr 1

/-- C4 at the sample helper right after `reset()`: the three inserts return and leave
the records in the order second, first, third. -/
theorem insert_ordering_witness :
    (((stockHelper.reset.append ⟨1, 10⟩).2.prepend ⟨2, 20⟩).2.append ⟨3, 30⟩).2.data =
        [⟨2, 20⟩, ⟨1, 10⟩, ⟨3, 30⟩] ∧
      (stockHelper.reset.append ⟨1, 10⟩).1 = .ok 0 ∧
      ((stockHelper.reset.append ⟨1, 10⟩).2.prepend ⟨2, 20⟩).1 = .ok () ∧
      (((stockHelper.reset.append ⟨1, 10⟩).2.prepend ⟨2, 20⟩).2.append ⟨3, 30⟩).1 = .ok 2 :=
  ⟨(insert_ordering stockHelper.reset ⟨0, 0⟩ ⟨1, 10⟩ ⟨2, 20⟩ ⟨3, 30⟩).2.2.1 (by decide),
    ((insert_ordering stockHelper.reset ⟨0, 0⟩ ⟨1, 10⟩ ⟨2, 20⟩ ⟨3, 30⟩).2.2.2 (by decide)).2.2⟩

/-! ## C2: removal out of range -/

namespace AbstractModelHelper

variable {T U : Type}

end AbstractModelHelper

/-- C3. For every helper whose rows are aligned with its records and every index
with `0 <= index < rowCount`, `takeRow(index)` returns the record that was at
that index, leaves the store with that element deleted and the grid with that
row deleted, so that the rows after it move up by one; on store `[r1, r2, r3]`
`takeRow(0)` returns `r1`, leaves `[r2, r3]`, and grid row 0 is the former row 1. -/
theorem takeRow_returns_removed {T U : Type} (e : AbstractModelHelper T U) (ha : e.Aligned)
    (index : Int) (h0 : 0 ≤ index) (hlt : index < (e.getRowCount : Int)) :
    (∃ d, e.data[index.toNat]? = some d ∧ (e.takeRow index).1 = .ok d) ∧
    (e.takeRow index).2.data = e.data.eraseIdx index.toNat ∧
    (e.takeRow index).2.model.rows = e.model.rows.eraseIdx index.toNat ∧
    (e.takeRow index).2.model.columnCount = e.model.columnCount ∧
    (∀ k : Nat, index.toNat ≤ k →
      (e.takeRow index).2.model.rows[k]? = e.model.rows[k + 1]?) ∧
    (∀ k : Nat, k < index.toNat → (e.takeRow index).2.model.rows[k]? = e.model.rows[k]?) ∧
    (∀ r1 r2 r3 : T, e.data = [r1, r2, r3] →
      (e.takeRow 0).1 = .ok r1 ∧ (e.takeRow 0).2.data = [r2, r3] ∧
      (e.takeRow 0).2.model.rows[0]? = e.model.rows[1]?) := by
  have hsync : e.data.length = e.model.rows.length := ha.1
  have hidx : ((index.toNat : Nat) : Int) = index := Int.toNat_of_nonneg h0
  have hi : index.toNat < e.data.length := by
    rw [hsync]
    have : index < (e.model.rows.length : Int) := hlt
    omega
  have hd : e.data[index.toNat]? = some e.data[index.toNat] := List.getElem?_eq_getElem hi
  have heq := AbstractModelHelper.takeRow_inRange e index.toNat _ hsync hd
  rw [hidx] at heq
  refine ⟨⟨_, hd, by rw [heq]⟩, by rw [heq], by rw [heq], by rw [heq]; rfl, ?_, ?_, ?_⟩
  · intro k hk
    rw [heq]
    exact List.getElem?_eraseIdx_of_ge _ _ _ hk
  · intro k hk
    rw [heq]
    exact List.getElem?_eraseIdx_of_lt _ _ _ hk
  · intro r1 r2 r3 hdata
    have hd0 : e.data[0]? = some r1 := by rw [hdata]; rfl
    have heq0 := AbstractModelHelper.takeRow_inRange e 0 r1 hsync hd0
    have hcast : ((0 : Nat) : Int) = 0 := rfl
    rw [hcast] at heq0
    rw [heq0]
    refine ⟨rfl, by simp [hdata], ?_⟩
    exact List.getElem?_eraseIdx_of_ge _ _ _ (Nat.le_refl 0)

/-! ## C1: row/record alignment -/

theorem eraseIdx_map {α β : Type} (f : α → β) (l : List α) :
    ∀ i : Nat, (l.map f).eraseIdx i = (l.eraseIdx i).map f := by
  induction l with
  | nil => intro i; rfl
  | cons a l ih =>
    intro i
    cases i with
    | zero => rfl
    | succ i => simp [List.eraseIdx, ih i]

namespace AbstractModelHelper

variable {T U : Type}

theorem Mirror.sync {e : AbstractModelHelper T U} (h : e.Mirror) :
    e.data.length = e.model.rows.length := by
  rw [h.2, List.length_map]

theorem Mirror.aligned {e : AbstractModelHelper T U} (h : e.Mirror) : e.Aligned := by
  refine ⟨h.sync, ?_⟩
  intro i d hd
  rw [h.2, List.getElem?_map, hd]
  rfl

theorem mirror_reset (e : AbstractModelHelper T U)
    (h : e.modelCaster.setters.length = e.reset.model.columnCount) : e.reset.Mirror := by
  refine ⟨h.symm, ?_⟩
  rw [reset_rows, reset_data]
  rfl

theorem mirror_append (e : AbstractModelHelper T U) (h : e.Mirror) (d : T) :
    (e.append d).2.Mirror := by
  rw [append_eq e d (le_of_eq h.1)]
  refine ⟨h.1, ?_⟩
  simp only [List.map_append, List.map_cons, List.map_nil, h.2]
  rw [h.1, List.take_length]

theorem mirror_prepend (e : AbstractModelHelper T U) (h : e.Mirror) (d : T) :
    (e.prepend d).2.Mirror := by
  rw [prepend_eq e d (le_of_eq h.1)]
  refine ⟨h.1, ?_⟩
  simp only [List.map_cons, h.2]
  rw [h.1, List.take_length]

theorem mirror_takeRow (e : AbstractModelHelper T U) (h : e.Mirror) (index : Int) :
    (e.takeRow index).2.Mirror := by
  by_cases hin : 0 ≤ index ∧ index < (e.model.rowCount : Int)
  · have hidx : ((index.toNat : Nat) : Int) = index := Int.toNat_of_nonneg hin.1
    have hi : index.toNat < e.data.length := by
      rw [h.sync]
      have : index < (e.model.rows.length : Int) := hin.2
      omega
    have heq := takeRow_inRange e index.toNat _ h.sync (List.getElem?_eq_getElem hi)
    rw [hidx] at heq
    rw [heq]
    refine ⟨h.1, ?_⟩
    show e.model.rows.eraseIdx index.toNat = _
    rw [h.2, eraseIdx_map]
  · have hout : index < 0 ∨ (e.model.rowCount : Int) ≤ index := by omega
    rw [takeRow_outOfRange e index h.sync hout]
    exact h

theorem discard_snd {α : Type} (o : Outcome T U α) : (Outcome.discard o).2 = o.2 := by
  obtain ⟨r, e⟩ := o
  cases r <;> rfl

theorem mirror_step (e : AbstractModelHelper T U) (h : e.Mirror) (op : Op T)
    (hop : op.isInsertRemove = true) : (e.step op).2.Mirror := by
  cases op with
  | append d => simp only [step, discard_snd]; exact mirror_append e h d
  | prepend d => exact mirror_prepend e h d
  | takeRow index => simp only [step, discard_snd]; exact mirror_takeRow e h index
  | takeLast => simp only [step, discard_snd]; exact mirror_takeRow e h _
  | takeFirst => simp only [step, discard_snd]; exact mirror_takeRow e h _
  | reset => cases hop
  | update => cases hop
  | updateRow row => cases hop
  | assign rowIndex d => cases hop
  | commit rowIndex => cases hop

theorem mirror_exec :
    ∀ (ops : List (Op T)) (e : AbstractModelHelper T U),
      e.Mirror → (∀ op ∈ ops, op.isInsertRemove = true) → (e.exec ops).Mirror := by
  intro ops
  induction ops with
  | nil => intro e h _; exact h
  | cons op ops ih =>
    intro e h hops
    exact ih _ (mirror_step e h op (hops op (List.mem_cons_self _ _)))
      (fun o ho => hops o (List.mem_cons_of_mem _ ho))

end AbstractModelHelper

/-- C1. Start from the state after `reset()`, with a caster holding one descriptor
per column, and run any finite sequence of `append`, `prepend`, `takeRow`,
`takeFirst` and `takeLast` calls: after every call of the sequence (after the
first `k` calls, for every `k`) the record store and the grid have the same
number of rows, and the cells of each grid row are the row the caster's
setters build, in column order, from the record of the same index. -/
theorem alignment_invariant {T U : Type} (e : AbstractModelHelper T U)
    (hcols : e.modelCaster.setters.length = e.reset.model.columnCount)
    (ops : List (Op T)) (hops : ∀ op ∈ ops, op.isInsertRemove = true) (k : Nat) :
    (e.reset.exec (ops.take k)).data.length = (e.reset.exec (ops.take k)).model.rowCount ∧
    ∀ (i : Nat) (d : T), (e.reset.exec (ops.take k)).data[i]? = some d →
      (e.reset.exec (ops.take k)).model.rows[i]? =
        some (buildRow (e.reset.exec (ops.take k)).modelCaster.setters d) :=
  (AbstractModelHelper.mirror_exec (ops.take k) e.reset (AbstractModelHelper.mirror_reset e hcols)
    (fun op hop => hops op (List.mem_of_mem_take hop))).aligned

/-- C1 at the sample helper: after `append`, `prepend`, `takeRow(0)`, `append`, the
one record left before the last `append` and the appended one sit in rows built
from them. -/
theorem alignment_invariant_witness :
    (stockHelper.reset.exec [.append ⟨1, 10⟩, .prepend ⟨2, 20⟩, .takeRow 0,
        .append ⟨3, 30⟩]).data = [⟨1, 10⟩, ⟨3, 30⟩] ∧
      (stockHelper.reset.exec [.append ⟨1, 10⟩, .prepend ⟨2, 20⟩, .takeRow 0,
        .append ⟨3, 30⟩]).model.rows[1]? = some (buildRow stockCaster.setters ⟨3, 30⟩) :=
  ⟨by decide,
    (alignment_invariant stockHelper (by decide)
      [.append ⟨1, 10⟩, .prepend ⟨2, 20⟩, .takeRow 0, .append ⟨3, 30⟩]
      (by decide) 4).2 1 ⟨3, 30⟩ (by decide)⟩

theorem aligned_stockRows : stockRows.Aligned := by
  have hm : (stockHelper.reset.exec
      [.append ⟨1, 10⟩, .append ⟨2, 20⟩, .append ⟨3, 30⟩]).Mirror :=
    AbstractModelHelper.mirror_exec _ stockHelper.reset
      (AbstractModelHelper.mirror_reset stockHelper (by decide)) (by decide)
  exact hm.aligned

/-- C3 at the sample helper: `takeRow(0)` on three rows returns the first record and
leaves the other two. -/
theorem takeRow_returns_removed_witness :
    (stockRows.takeRow 0).1 = .ok ⟨1, 10⟩ ∧ (stockRows.takeRow 0).2.data = [⟨2, 20⟩, ⟨3, 30⟩] ∧
      (stockRows.takeRow 0).2.model.rows[0]? = stockRows.model.rows[1]? :=
  (takeRow_returns_removed stockRows aligned_stockRows 0 (by decide) (by decide)).2.2.2.2.2.2
    ⟨1, 10⟩ ⟨2, 20⟩ ⟨3, 30⟩ (by decide)

/-! ## C9: round trip of a bound column -/

/-- C9. For every column added by `next` with a non-null accessor, with `s` its
setter and `g` its getter, every record `r` and every cell: building `r` into
the cell and writing the cell back into `r` returns `r` unchanged; building
again from the record written back gives the same cell; that cell holds the
accessed value at the column's role and the column's editable flag. -/
theorem bound_column_round_trip {T U E : Type} [QMetaType U E] (c : ModelCaster T U)
    (p : FieldRef T E) (role : Int) (editable : Bool)
    (s : T → QStandardItem U → QStandardItem U)
    (g : T → Option (QStandardItem U) → Except QtFailure T)
    (hs : (c.next (some p) role editable).setters.getLast? = some s)
    (hg : (c.next (some p) role editable).getters.getLast? = some g)
    (r : T) (cell : QStandardItem U) :
    g r (some (s r cell)) = .ok r ∧
    (∀ r1 : T, g r (some (s r cell)) = .ok r1 → s r1 (s r cell) = s r cell) ∧
    (s r cell).data role = some (QMetaType.fromValue (p.get r)) ∧
    (s r cell).editable = editable := by
  have hlaw := ModelCaster.next_columnLaw (T := T) (U := U) (some p) role editable
  simp only [ModelCaster.next, List.getLast?_concat, Option.some.injEq] at hs hg
  subst hs
  subst hg
  have hrt := hlaw.roundTrip r cell
  refine ⟨hrt, ?_, ?_, rfl⟩
  · intro r1 h1
    have h2 : (Except.ok r : Except QtFailure T) = Except.ok r1 := hrt.symm.trans h1
    cases h2
    exact hlaw.overwrite r r cell
  · simp [QStandardItem.setEditable, QStandardItem.data, QStandardItem.setData,
      QStandardItem.find_store]

/-- C9 at the sample caster: the `qty` column, record `(1, 10)`, a new item. -/
theorem bound_column_round_trip_witness :
    stockQtyGetter ⟨1, 10⟩ (some (stockQtySetter ⟨1, 10⟩ QStandardItem.new)) = .ok ⟨1, 10⟩ ∧
      (stockQtySetter ⟨1, 10⟩ QStandardItem.new).data Qt.EditRole = some 10 :=
  ⟨(bound_column_round_trip shortCaster Stock.qtyRef Qt.EditRole true stockQtySetter
      stockQtyGetter rfl rfl ⟨1, 10⟩ QStandardItem.new).1,
    (bound_column_round_trip shortCaster Stock.qtyRef Qt.EditRole true stockQtySetter
      stockQtyGetter rfl rfl ⟨1, 10⟩ QStandardItem.new).2.2.1⟩

/-! ## C10: descriptors and columns -/

namespace AbstractModelHelper

variable {T U : Type}

theorem resetCols_rowLengths (rowIndex : Int) :
    ∀ (n j : Nat) (e : AbstractModelHelper T U),
      (resetCols rowIndex n j e).2.model.rows.map List.length =
        e.model.rows.map List.length := by
  intro n
  induction n with
  | zero => intro j e; simp [resetCols]
  | succ n ih =>
    intro j e
    unfold resetCols
    split
    · rfl
    · split
      · rfl
      · split
        · rfl
        · rename_i s _ _ d _ _ it _
          rw [ih (j + 1) { e with model := e.model.putItem rowIndex.toNat j (s d it) }]
          simp only [QStandardItemModel.putItem]
          split
          · rfl
          · rename_i r hr
            simp only [List.map_set, List.length_set]
            apply set_eq_self
            rw [List.getElem?_map, hr]
            rfl

theorem takeRow_frame (e : AbstractModelHelper T U) (index : Int) :
    (e.takeRow index).2.modelCaster = e.modelCaster ∧
    (e.takeRow index).2.getHeaders = e.getHeaders ∧
    (e.takeRow index).2.model.columns = e.model.columns ∧
    ∀ row ∈ (e.takeRow index).2.model.rows, row ∈ e.model.rows := by
  have hm : (e.model.removeRow index).2.columns = e.model.columns ∧
      ∀ row ∈ (e.model.removeRow index).2.rows, row ∈ e.model.rows := by
    unfold QStandardItemModel.removeRow
    split
    · exact ⟨rfl, fun _ h => h⟩
    · exact ⟨rfl, fun _ h => List.mem_of_mem_eraseIdx h⟩
  unfold takeRow
  simp only
  split
  · exact ⟨rfl, rfl, hm.1, hm.2⟩
  · exact ⟨rfl, rfl, hm.1, hm.2⟩

theorem apply_snd (ed : ItemDataEditor T U) (h : AbstractModelHelper T U) :
    (ed.apply h).2 = (ed.callback h).2 := by
  unfold ItemDataEditor.apply
  split
  · rename_i f e1 heq
    rw [heq]
  · rename_i u e1 heq
    rw [heq]

theorem covered_reset (e : AbstractModelHelper T U)
    (h : e.modelCaster.setters.length = headerColumns e.getHeaders) : e.reset.Covered := by
  refine ⟨h, ?_, ?_⟩
  · rw [QStandardItemModel.columnCount, reset_columns, reset_modelCaster, h]
    rfl
  · intro row hrow
    rw [reset_rows] at hrow
    cases hrow

theorem covered_of_frame (e e1 : AbstractModelHelper T U) (h : e.Covered)
    (hc : e1.modelCaster = e.modelCaster) (hh : e1.getHeaders = e.getHeaders)
    (hcol : e1.model.columns = e.model.columns)
    (hrows : ∀ row ∈ e1.model.rows, ∃ row0 ∈ e.model.rows, row.length = row0.length) :
    e1.Covered := by
  refine ⟨?_, ?_, ?_⟩
  · rw [hc, hh]
    exact h.1
  · rw [QStandardItemModel.columnCount, hcol, hc]
    exact h.2.1
  · intro row hrow
    obtain ⟨row0, hrow0, hlen⟩ := hrows row hrow
    rw [hlen, hc]
    exact h.2.2 row0 hrow0

theorem covered_rowDataReseted (e : AbstractModelHelper T U) (h : e.Covered) (rowIndex : Int) :
    (e.rowDataReseted rowIndex).2.Covered := by
  have hf := resetCols_frame rowIndex e.model.columnCount 0 e
  have hl := resetCols_rowLengths rowIndex e.model.columnCount 0 e
  apply covered_of_frame e _ h hf.2.1 hf.2.2.1 hf.2.2.2.2.1
  intro row hrow
  have hmem : row.length ∈ (e.rowDataReseted rowIndex).2.model.rows.map List.length :=
    List.mem_map_of_mem _ hrow
  rw [rowDataReseted, hl] at hmem
  obtain ⟨row0, hrow0, hlen⟩ := List.mem_map.mp hmem
  exact ⟨row0, hrow0, hlen.symm⟩

theorem covered_step (e : AbstractModelHelper T U) (h : e.Covered) (op : Op T) :
    (e.step op).2.Covered := by
  have hcols : e.model.columns ≤ e.modelCaster.setters.length := le_of_eq h.2.1
  have htake : e.modelCaster.setters.take e.model.columns = e.modelCaster.setters := by
    have : e.model.columns = e.modelCaster.setters.length := h.2.1
    rw [this, List.take_length]
  cases op with
  | reset => exact covered_reset e h.1
  | append d =>
    simp only [step, discard_snd]
    rw [append_eq e d hcols]
    refine ⟨h.1, h.2.1, ?_⟩
    intro row hrow
    simp only [List.mem_append, List.mem_singleton] at hrow
    rcases hrow with hold | hnew
    · exact h.2.2 row hold
    · rw [hnew, htake]
      simp [buildRow]
  | prepend d =>
    simp only [step]
    rw [prepend_eq e d hcols]
    refine ⟨h.1, h.2.1, ?_⟩
    intro row hrow
    simp only [List.mem_cons] at hrow
    rcases hrow with hnew | hold
    · rw [hnew, htake]
      simp [buildRow]
    · exact h.2.2 row hold
  | takeRow index =>
    simp only [step, discard_snd]
    have hf := takeRow_frame e index
    exact covered_of_frame e _ h hf.1 hf.2.1 hf.2.2.1 (fun row hr => ⟨row, hf.2.2.2 row hr, rfl⟩)
  | takeLast =>
    simp only [step, discard_snd]
    have hf := takeRow_frame e ((e.model.rowCount : Int) - 1)
    exact covered_of_frame e _ h hf.1 hf.2.1 hf.2.2.1 (fun row hr => ⟨row, hf.2.2.2 row hr, rfl⟩)
  | takeFirst =>
    simp only [step, discard_snd]
    have hf := takeRow_frame e 0
    exact covered_of_frame e _ h hf.1 hf.2.1 hf.2.2.1 (fun row hr => ⟨row, hf.2.2.2 row hr, rfl⟩)
  | update =>
    have hf := updateRows_frame e.model.columnCount e.model.rowCount 0 e
    simp only [step, update]
    exact covered_of_frame e _ h hf.2.1 hf.2.2.1 (by rw [hf.1])
      (fun row hr => ⟨row, by rw [hf.1] at hr; exact hr, rfl⟩)
  | updateRow row =>
    have hf := updateCols_frame row e.model.columnCount 0 e
    simp only [step, updateRow]
    exact covered_of_frame e _ h hf.2.1 hf.2.2.1 (by rw [hf.1])
      (fun r hr => ⟨r, by rw [hf.1] at hr; exact hr, rfl⟩)
  | assign rowIndex d =>
    simp only [step]
    split
    · exact h
    · rename_i ed hed
      have hf := assign_frame ed e d
      exact covered_of_frame e _ h hf.2.1 hf.2.2.1 (by rw [hf.1])
        (fun row hr => ⟨row, by rw [hf.1] at hr; exact hr, rfl⟩)
  | commit rowIndex =>
    simp only [step]
    split
    · exact h
    · rename_i ed hed
      obtain ⟨hed1, _⟩ := editRow_ok e rowIndex ed hed
      rw [discard_snd, apply_snd, hed1]
      exact covered_rowDataReseted e h rowIndex

theorem covered_exec :
    ∀ (ops : List (Op T)) (e : AbstractModelHelper T U), e.Covered → (e.exec ops).Covered := by
  intro ops
  induction ops with
  | nil => intro e h; exact h
  | cons op ops ih => intro e h; exact ih _ (covered_step e h op)

end AbstractModelHelper

/-- C10, as the claim states it, fails: a caster made by one `next` call under a
header of three titles has 1 descriptor while the grid has 3 columns after
`reset()`, and the first `append` then stops on the range assertion of the
setter list. -/
theorem short_caster_mismatch :
    shortCaster.FromNext ∧ shortHelper.reset.modelCaster.setters.length = 1 ∧
      shortHelper.reset.model.columnCount = 3 ∧
      (shortHelper.reset.append ⟨1, 10⟩).1 = .error .indexOutOfRange :=
  ⟨shortCaster_fromNext, by decide, by decide, rfl⟩

/-- C10, amended. When the caster has as many descriptors as the header asks
columns (its length, or 1 for an empty header), then after `reset()` and after
every later call (`reset`, `append`, `prepend`, `takeRow`, `takeFirst`,
`takeLast`, `update`, `update(int)`, an assignment through an editor, a commit)
the number of descriptors equals the grid's `columnCount`, every grid row has
exactly that many cells, and the row an `append` or `prepend` inserts is made
of one cell per descriptor, in call order. -/
theorem caster_covers_columns {T U : Type} (e : AbstractModelHelper T U)
    (hlen : e.modelCaster.setters.length = headerColumns e.getHeaders)
    (ops : List (Op T)) (k : Nat) (d : T) :
    (e.reset.exec (ops.take k)).modelCaster.setters.length =
      (e.reset.exec (ops.take k)).model.columnCount ∧
    (∀ row ∈ (e.reset.exec (ops.take k)).model.rows,
      row.length = (e.reset.exec (ops.take k)).modelCaster.setters.length) ∧
    ((e.reset.exec (ops.take k)).append d).2.model.rows =
      (e.reset.exec (ops.take k)).model.rows ++
        [buildRow (e.reset.exec (ops.take k)).modelCaster.setters d] ∧
    ((e.reset.exec (ops.take k)).prepend d).2.model.rows =
      buildRow (e.reset.exec (ops.take k)).modelCaster.setters d ::
        (e.reset.exec (ops.take k)).model.rows ∧
    (buildRow (e.reset.exec (ops.take k)).modelCaster.setters d).length =
      (e.reset.exec (ops.take k)).modelCaster.setters.length := by
  have hc := AbstractModelHelper.covered_exec (ops.take k) e.reset
    (AbstractModelHelper.covered_reset e hlen)
  generalize e.reset.exec (ops.take k) = s at hc
  have hcols : s.model.columns ≤ s.modelCaster.setters.length := le_of_eq hc.2.1
  have htake : s.modelCaster.setters.take s.model.columns = s.modelCaster.setters := by
    have : s.model.columns = s.modelCaster.setters.length := hc.2.1
    rw [this, List.take_length]
  refine ⟨hc.2.1.symm, hc.2.2, ?_, ?_, by simp [buildRow]⟩
  · rw [AbstractModelHelper.append_eq s d hcols, htake]
  · rw [AbstractModelHelper.prepend_eq s d hcols, htake]

/-- C10, amended, at the sample helper: two titles, two descriptors; after `reset()`,
two `append` calls, a commit and a `takeFirst`, two descriptors and two columns. -/
theorem caster_covers_columns_witness :
    (stockHelper.reset.exec [.append ⟨1, 10⟩, .append ⟨2, 20⟩, .commit 1,
        .takeFirst]).modelCaster.setters.length =
      (stockHelper.reset.exec [.append ⟨1, 10⟩, .append ⟨2, 20⟩, .commit 1,
        .takeFirst]).model.columnCount :=
  (caster_covers_columns stockHelper (by decide)
    [.append ⟨1, 10⟩, .append ⟨2, 20⟩, .commit 1, .takeFirst] 4 ⟨0, 0⟩).1

/-! ## C5: an open editor does not touch the grid -/

namespace AbstractModelHelper

variable {T U : Type}

theorem apply_editRow_eq (e : AbstractModelHelper T U) (hw : e.WellFormed) (n : Nat) (d : T)
    (hd : e.data[n]? = some d) (flag : Bool) :
    ItemDataEditor.apply
        { data := (n : Int), callback := fun h => rowDataReseted h (n : Int),
          deleteLaterCalled := flag } e =
      (.ok { data := (n : Int), callback := fun h => rowDataReseted h (n : Int),
             deleteLaterCalled := true },
        { e with
          model := { e.model with
            rows := e.model.rows.set n
              (buildRow (e.modelCaster.setters.take e.model.columns) d) } }) := by
  simp only [ItemDataEditor.apply, rowDataReseted_eq e hw n d hd]

theorem valid_row (e : AbstractModelHelper T U) (hw : e.WellFormed) (i : Int) (h0 : 0 ≤ i)
    (hlt : i < (e.getRowCount : Int)) :
    ∃ n : Nat, i = (n : Int) ∧ n < e.data.length ∧ n < e.model.rows.length := by
  obtain ⟨n, hn⟩ := Int.eq_ofNat_of_zero_le h0
  refine ⟨n, hn, ?_, ?_⟩
  · rw [hw.sync]
    have : i < (e.model.rows.length : Int) := hlt
    omega
  · have : i < (e.model.rows.length : Int) := hlt
    omega

end AbstractModelHelper

/-- C5. For every state of a helper in use and every valid row index `i`:
`editRow(i)` returns an editor; assigning a record `d` through its accessor
changes slot `i` of the store only and leaves the whole grid as it was;
`apply()` then returns, leaves the store as the assignment left it, makes the
cells of row `i` equal to the row built from `d`, and leaves every other row,
the number of rows and the number of columns unchanged. -/
theorem edit_isolation {T U : Type} (e : AbstractModelHelper T U)
    (hr : AbstractModelHelper.Reachable e) (i : Int) (h0 : 0 ≤ i)
    (hlt : i < (e.getRowCount : Int)) (d : T) :
    ∃ ed : ItemDataEditor T U, e.editRow i = .ok ed ∧
      (ed.assign e d).model = e.model ∧
      ed.read (ed.assign e d) = some d ∧
      (∀ k : Nat, k ≠ i.toNat → (ed.assign e d).data[k]? = e.data[k]?) ∧
      (ed.apply (ed.assign e d)).1 = .ok { ed with deleteLaterCalled := true } ∧
      (ed.apply (ed.assign e d)).2.data = (ed.assign e d).data ∧
      (ed.apply (ed.assign e d)).2.model.rows[i.toNat]? =
        some (buildRow (e.modelCaster.setters.take e.model.columnCount) d) ∧
      (∀ k : Nat, k ≠ i.toNat →
        (ed.apply (ed.assign e d)).2.model.rows[k]? = e.model.rows[k]?) ∧
      (ed.apply (ed.assign e d)).2.model.rows.length = e.model.rows.length ∧
      (ed.apply (ed.assign e d)).2.model.columnCount = e.model.columnCount := by
  have hw := hr.wellFormed
  obtain ⟨n, hn, hnd, hnr⟩ := AbstractModelHelper.valid_row e hw i h0 hlt
  subst hn
  have hd0 : e.data[n]? = some e.data[n] := List.getElem?_eq_getElem hnd
  have hrow0 : e.model.rows[n]? = some e.model.rows[n] := List.getElem?_eq_getElem hnr
  refine ⟨_, AbstractModelHelper.editRow_natCast e n _ hd0, ?_⟩
  have hassign : ItemDataEditor.assign
      { data := (n : Int), callback := fun h => AbstractModelHelper.rowDataReseted h (n : Int),
        deleteLaterCalled := false } e d = { e with data := e.data.set n d } := by
    simp [ItemDataEditor.assign]
  have hw1 : ({ e with data := e.data.set n d } : AbstractModelHelper T U).WellFormed :=
    AbstractModelHelper.wellFormed_of_frame e _ hw rfl rfl (by simp)
  have hd1 : ({ e with data := e.data.set n d } : AbstractModelHelper T U).data[n]? = some d :=
    getElem?_set_of_some _ _ _ _ hd0
  have happly := AbstractModelHelper.apply_editRow_eq _ hw1 n d hd1 false
  rw [hassign, happly]
  have hcast : ((n : Int)).toNat = n := Int.toNat_ofNat n
  rw [hcast]
  refine ⟨rfl, ?_, ?_, rfl, rfl, ?_, ?_, ?_, rfl⟩
  · simp only [ItemDataEditor.read, QList.at?_natCast]
    exact hd1
  · intro k hk
    exact List.getElem?_set_ne (Ne.symm hk)
  · exact getElem?_set_of_some _ _ _ _ hrow0
  · intro k hk
    exact List.getElem?_set_ne (Ne.symm hk)
  · simp

/-- C5 at the sample helper: row 1 of three, assigned the record `(7, 70)`. -/
theorem edit_isolation_witness :
    ∃ ed : ItemDataEditor Stock Int, stockRows.editRow 1 = .ok ed ∧
      (ed.assign stockRows ⟨7, 70⟩).model = stockRows.model ∧
      (ed.apply (ed.assign stockRows ⟨7, 70⟩)).2.model.rows[1]? =
        some (buildRow (stockRows.modelCaster.setters.take stockRows.model.columnCount)
          ⟨7, 70⟩) ∧
      (ed.apply (ed.assign stockRows ⟨7, 70⟩)).2.model.rows[0]? = stockRows.model.rows[0]? := by
  obtain ⟨ed, h1, h2, _, _, _, _, h7, h8, _, _⟩ :=
    edit_isolation stockRows reachable_stockRows 1 (by decide) (by decide) ⟨7, 70⟩
  exact ⟨ed, h1, h2, h7, h8 0 (by decide)⟩

/-! ## C6: `update(int)` against commit -/

/-- C6, as the claim states it, fails.  On the sample helper with one row built from
`(1, 10)` whose record has since been assigned `(7, 70)` through an editor:
`update(0)` writes the cell values back, so the store becomes `[(1, 10)]`, and
leaves the grid as it was; the commit leaves the store `[(7, 70)]` and rebuilds
the row from it.  The two calls end in different stores and different grids. -/
theorem update_row_is_write_back :
    AbstractModelHelper.Reachable stockEdited ∧
      stockEdited.data = [⟨7, 70⟩] ∧
      (stockEdited.updateRow 0).2.data = [⟨1, 10⟩] ∧
      (stockEdited.updateRow 0).2.model = stockEdited.model ∧
      (stockEdited.step (.commit 0)).2.data = [⟨7, 70⟩] ∧
      (stockEdited.step (.commit 0)).2.model.rows = [buildRow stockCaster.setters ⟨7, 70⟩] ∧
      (stockEdited.step (.commit 0)).2.data ≠ (stockEdited.updateRow 0).2.data ∧
      (stockEdited.step (.commit 0)).2.model ≠ (stockEdited.updateRow 0).2.model :=
  ⟨reachable_stockEdited, by decide, by decide, by decide, by decide, by decide, by decide,
    by decide⟩

/-- C6, amended.  For every state of a helper in use and every valid row index `i`,
with `d` the record of slot `i` and `row` the cells of grid row `i`: committing
an editor opened on row `i` returns, leaves the store unchanged and sets row
`i` to the row built from `d`; `update(i)` returns, leaves the grid unchanged
and puts in slot `i` the record obtained by writing `row` back into `d`, getter
by getter; when `row` already is the row built from `d`, both calls leave
store and grid exactly as they were, hence end in the same state. -/
theorem refresh_and_commit {T U : Type} (e : AbstractModelHelper T U)
    (hr : AbstractModelHelper.Reachable e) (i : Int) (h0 : 0 ≤ i)
    (hlt : i < (e.getRowCount : Int)) :
    ∃ (d : T) (row : List (Option (QStandardItem U))) (ed : ItemDataEditor T U),
      e.data[i.toNat]? = some d ∧ e.model.rows[i.toNat]? = some row ∧
      e.editRow i = .ok ed ∧
      ed.apply e =
        (.ok { ed with deleteLaterCalled := true },
          { e with
            model := { e.model with
              rows := e.model.rows.set i.toNat
                (buildRow (e.modelCaster.setters.take e.model.columnCount) d) } }) ∧
      (∃ d1 : T,
        writeBackRow (e.modelCaster.getters.take e.model.columnCount) d row = .ok d1 ∧
        e.updateRow i = (.ok (), { e with data := e.data.set i.toNat d1 })) ∧
      (row = buildRow (e.modelCaster.setters.take e.model.columnCount) d →
        e.updateRow i = (.ok (), e) ∧ (ed.apply e).2 = e) := by
  have hw := hr.wellFormed
  obtain ⟨n, hn, hnd, hnr⟩ := AbstractModelHelper.valid_row e hw i h0 hlt
  subst hn
  have hd0 : e.data[n]? = some e.data[n] := List.getElem?_eq_getElem hnd
  have hrow0 : e.model.rows[n]? = some e.model.rows[n] := List.getElem?_eq_getElem hnr
  have happly := AbstractModelHelper.apply_editRow_eq e hw n _ hd0 false
  have hcast : ((n : Int)).toNat = n := Int.toNat_ofNat n
  rw [hcast]
  refine ⟨e.data[n], e.model.rows[n], _, hd0, hrow0,
    AbstractModelHelper.editRow_natCast e n _ hd0, happly,
    AbstractModelHelper.updateRow_writeBack e hw n _ _ hd0 hrow0, ?_⟩
  intro hrow
  have hrow1 : e.model.rows[n]? =
      some (buildRow (e.modelCaster.setters.take e.model.columns) e.data[n]) := by
    rw [hrow0]
    exact congrArg some hrow
  refine ⟨AbstractModelHelper.updateRow_aligned e hw n _ hd0 hrow1, ?_⟩
  rw [happly]
  have hset := set_eq_self e.model.rows n _ hrow1
  simp only [hset]

/-- C6, amended, at the sample helper whose record was assigned `(7, 70)` over a row
built from `(1, 10)`: `update(0)` returns and puts the written-back record in
slot 0, the commit returns. -/
theorem refresh_and_commit_witness :
    ∃ (d : Stock) (row : List (Option (QStandardItem Int))) (ed : ItemDataEditor Stock Int),
      stockEdited.data[0]? = some d ∧ stockEdited.model.rows[0]? = some row ∧
      stockEdited.editRow 0 = .ok ed ∧
      (∃ d1 : Stock,
        writeBackRow (stockEdited.modelCaster.getters.take stockEdited.model.columnCount)
          d row = .ok d1 ∧
        stockEdited.updateRow 0 =
          (.ok (), { stockEdited with data := stockEdited.data.set 0 d1 })) := by
  obtain ⟨d, row, ed, h1, h2, h3, _, h5, _⟩ :=
    refresh_and_commit stockEdited reachable_stockEdited 0 (by decide) (by decide)
  exact ⟨d, row, ed, h1, h2, h3, h5⟩

/-! ## C7: `apply()` a second time -/

/-- C7, as the claim states it, fails.  On the sample helper with one row, the editor
of row 0 is applied, the record is assigned `(7, 70)` through the same editor,
and the editor is applied a second time: the second `apply()` returns like the
first, and the row, built from `(1, 10)` after the first, is built from
`(7, 70)` after the second, so the callback ran again. -/
theorem second_apply_runs_callback :
    stockOne.editRow 0 = .ok stockEditor ∧
      (stockEditor.apply stockOne).1 = .ok stockEditorApplied ∧
      (stockEditor.apply stockOne).2.model.rows = [buildRow stockCaster.setters ⟨1, 10⟩] ∧
      (stockEditorApplied.apply
        (stockEditorApplied.assign (stockEditor.apply stockOne).2 ⟨7, 70⟩)).1 =
          .ok stockEditorApplied ∧
      (stockEditorApplied.apply
        (stockEditorApplied.assign (stockEditor.apply stockOne).2 ⟨7, 70⟩)).2.model.rows =
          [buildRow stockCaster.setters ⟨7, 70⟩] :=
  ⟨rfl, rfl, by decide, rfl, by decide⟩

/-- C7, amended.  For every state of a helper in use and every valid row index `i`,
the editor `editRow(i)` returns can be applied twice: the first `apply()`
returns and records the deletion request; the second `apply()`, on the state
the first left, returns as well and leaves store and grid as the first left
them; and on any state an applied editor runs the callback again, its effect
being that of `rowDataReseted(i)`. -/
theorem apply_twice {T U : Type} (e : AbstractModelHelper T U)
    (hr : AbstractModelHelper.Reachable e) (i : Int) (h0 : 0 ≤ i)
    (hlt : i < (e.getRowCount : Int)) :
    ∃ (ed ed1 : ItemDataEditor T U) (e1 : AbstractModelHelper T U),
      e.editRow i = .ok ed ∧ ed.apply e = (.ok ed1, e1) ∧
      ed1.deleteLaterCalled = true ∧
      ed1.apply e1 = (.ok ed1, e1) ∧
      ∀ h : AbstractModelHelper T U, (ed1.apply h).2 = (h.rowDataReseted i).2 := by
  have hw := hr.wellFormed
  obtain ⟨n, hn, hnd, hnr⟩ := AbstractModelHelper.valid_row e hw i h0 hlt
  subst hn
  have hd0 : e.data[n]? = some e.data[n] := List.getElem?_eq_getElem hnd
  have happly := AbstractModelHelper.apply_editRow_eq e hw n _ hd0 false
  have hw1 := AbstractModelHelper.wellFormed_rowDataReseted e hw n _ hd0
  rw [AbstractModelHelper.rowDataReseted_eq e hw n _ hd0] at hw1
  have happly1 := AbstractModelHelper.apply_editRow_eq _ hw1 n _ hd0 true
  refine ⟨_, _, _, AbstractModelHelper.editRow_natCast e n _ hd0, happly, rfl, ?_, ?_⟩
  · rw [happly1]
    simp only [List.set_set]
  · intro h
    rw [AbstractModelHelper.apply_snd]

/-- C7, amended, at the sample helper with one row: two `apply()` calls in a row. -/
theorem apply_twice_witness :
    ∃ (ed ed1 : ItemDataEditor Stock Int) (e1 : AbstractModelHelper Stock Int),
      stockOne.editRow 0 = .ok ed ∧ ed.apply stockOne = (.ok ed1, e1) ∧
      ed1.apply e1 = (.ok ed1, e1) := by
  obtain ⟨ed, ed1, e1, h1, h2, _, h4, _⟩ :=
    apply_twice stockOne
      (AbstractModelHelper.Reachable.exec_of_okRun _ stockHelper
        (AbstractModelHelper.Reachable.init _ _ stockCaster_fromNext) (by decide))
      0 (by decide) (by decide)
  exact ⟨ed, ed1, e1, h1, h2, h4⟩

end LiveData
